import Mathlib

/-!
Verification of `sorted` (jba/sorted, `sorted.go`).

The package provides `Merge`, `Union`, `Intersect` and `Subtract` over push-style
iterators (`iter.Seq[T]`) whose values are sorted.

Embedding:

* A finite input sequence (`slices.Values(s)`) is the list `s`.
* A consumer `yield func(T) bool` that owns some state is a function
  `T → σ → Bool × σ`: it receives a value and its current state, and answers whether it
  wants more together with its new state.
* The pull cursor `next, stop := iter.Pull(s2)` together with the two locals `e2, ok` is the
  list `pending` of the values of `s2` not yet consumed: `ok` holds iff `pending` is not empty,
  `e2` is its head, and `e2, ok = next()` replaces `pending` by its tail.  Every call of
  `next` and of `stop` is recorded, in order, in a log of `CursorEvent`s.
* Go's `int` result of a comparator is an `Int`; only its sign is ever inspected.
-/

namespace Sorted

variable {T σ : Type}

/-! ## Data model -/

/-- Actions performed on the cursor returned by `iter.Pull(s2)`. -/
inductive CursorEvent where
  | pull
  | release
  deriving DecidableEq

/-- Snapshot of the locals of a running operation: the cursor view `pending` (`e2`, `ok` and
what `next` will still return), the cursor actions so far, and the consumer's state. -/
structure State (T σ : Type) where
  pending : List T
  log : List CursorEvent
  sink : σ

/-- Model of `cmp.Compare` from the Go standard library, for ordered types without NaN:
`-1` if `x < y`, `+1` if `x > y`, and `0` otherwise. -/
def Compare [LinearOrder T] (x y : T) : Int :=
  if x < y then -1 else if x > y then 1 else 0

/-- Model of ranging over `slices.Values(xs)`: push every value to `yield` until it declines.
The Boolean tells whether the whole list was accepted. -/
def feed (yield : T → σ → Bool × σ) : List T → σ → Bool × σ
  | [], s => (true, s)
  | x :: xs, s =>
    let r := yield x s
    if !r.1 then (false, r.2) else feed yield xs r.2

/-! ## `MergeFunc` -/

/-- Inner loop of `MergeFunc` (lines 26-31):
`for ok && cmp(e2, e1) < 0 { if !yield(e2) { return }; e2, ok = next() }`.
The Boolean is `false` when the `return` was taken. -/
def mergeInner (cmp : T → T → Int) (yield : T → σ → Bool × σ) (e1 : T) :
    List T → List CursorEvent → σ → Bool × State T σ
  | [], log, s => (true, ⟨[], log, s⟩)
  | e2 :: rest, log, s =>
    if cmp e2 e1 < 0 then
      let r := yield e2 s
      if !r.1 then (false, ⟨e2 :: rest, log, r.2⟩)
      else mergeInner cmp yield e1 rest (log ++ [CursorEvent.pull]) r.2
    else (true, ⟨e2 :: rest, log, s⟩)

/-- Loop `for e1 := range s1 { ... }` of `MergeFunc` (lines 25-35). -/
def mergeOuter (cmp : T → T → Int) (yield : T → σ → Bool × σ) :
    List T → List T → List CursorEvent → σ → Bool × State T σ
  | [], pending, log, s => (true, ⟨pending, log, s⟩)
  | e1 :: s1, pending, log, s =>
    let r := mergeInner cmp yield e1 pending log s
    if !r.1 then (false, r.2)
    else
      let y := yield e1 r.2.sink
      if !y.1 then (false, ⟨r.2.pending, r.2.log, y.2⟩)
      else mergeOuter cmp yield s1 r.2.pending r.2.log y.2

/-- Final loop of `MergeFunc` (lines 36-40):
`for ; ok; e2, ok = next() { if !yield(e2) { return } }`. -/
def mergeDrain (yield : T → σ → Bool × σ) :
    List T → List CursorEvent → σ → Bool × State T σ
  | [], log, s => (true, ⟨[], log, s⟩)
  | e2 :: rest, log, s =>
    let r := yield e2 s
    if !r.1 then (false, ⟨e2 :: rest, log, r.2⟩)
    else mergeDrain yield rest (log ++ [CursorEvent.pull]) r.2

/-- Body of the function returned by `MergeFunc`, without the deferred `stop()`:
the first `e2, ok := next()` (one pull), the loop over `s1`, then the final loop. -/
def mergeBody (s1 s2 : List T) (cmp : T → T → Int) (yield : T → σ → Bool × σ) (s : σ) :
    State T σ :=
  let r := mergeOuter cmp yield s1 s2 [CursorEvent.pull] s
  if !r.1 then r.2
  else (mergeDrain yield r.2.pending r.2.log r.2.sink).2

/-- The sequence `MergeFunc(s1, s2, cmp)` run against the consumer `yield` started in state `s`:
the body, followed on every exit path by the deferred `stop()`. -/
def MergeFunc (s1 s2 : List T) (cmp : T → T → Int) (yield : T → σ → Bool × σ) (s : σ) :
    State T σ :=
  let r := mergeBody s1 s2 cmp yield s
  ⟨r.pending, r.log ++ [CursorEvent.release], r.sink⟩

/-- `Merge(s1, s2)` is `MergeFunc(s1, s2, cmp.Compare[T])`. -/
def Merge [LinearOrder T] (s1 s2 : List T) (yield : T → σ → Bool × σ) (s : σ) : State T σ :=
  MergeFunc s1 s2 Compare yield s

/-! ## `uniqueYielder` -/

/-- The closure returned by `uniqueYielder(yield, cmp)`.  Its captured variables `prev`, `have`
are the `Option T` component of the state (`none` while `have` is false). -/
def uniqueYielder (yield : T → σ → Bool × σ) (cmp : T → T → Int) :
    T → Option T × σ → Bool × (Option T × σ)
  | x, (some prev, s) =>
    if cmp x prev = 0 then (true, (some prev, s))
    else
      let r := yield x s
      (r.1, (some x, r.2))
  | x, (none, s) =>
    let r := yield x s
    (r.1, (some x, r.2))

/-! ## `UnionFunc` -/

/-- The sequence `UnionFunc(s1, s2, cmp)` run against `y`: it ranges over
`MergeFunc(s1, s2, cmp)` with the loop body `if !yield(x) { return }`, where
`yield := uniqueYielder(y, cmp)`. -/
def UnionFunc (s1 s2 : List T) (cmp : T → T → Int) (y : T → σ → Bool × σ) (s : σ) :
    State T σ :=
  let r := MergeFunc s1 s2 cmp (uniqueYielder y cmp) (none, s)
  ⟨r.pending, r.log, r.sink.2⟩

/-- `Union(s1, s2)` is `UnionFunc(s1, s2, cmp.Compare[T])`. -/
def Union [LinearOrder T] (s1 s2 : List T) (y : T → σ → Bool × σ) (s : σ) : State T σ :=
  UnionFunc s1 s2 Compare y s

/-! ## `IntersectFunc` and `SubtractFunc` -/

/-- The loop `for ok && cmp(e2, e1) < 0 { e2, ok = next() }` shared by `IntersectFunc`
(lines 85-87) and `SubtractFunc` (lines 117-119). -/
def skipLess (cmp : T → T → Int) (e1 : T) :
    List T → List CursorEvent → List T × List CursorEvent
  | [], log => ([], log)
  | e2 :: rest, log =>
    if cmp e2 e1 < 0 then skipLess cmp e1 rest (log ++ [CursorEvent.pull])
    else (e2 :: rest, log)

/-- Second inner loop of `IntersectFunc` (lines 88-93):
`for ok && cmp(e2, e1) == 0 { if !yield(e1) { return }; e2, ok = next() }`. -/
def intersectMatch (cmp : T → T → Int) (yield : T → σ → Bool × σ) (e1 : T) :
    List T → List CursorEvent → σ → Bool × State T σ
  | [], log, s => (true, ⟨[], log, s⟩)
  | e2 :: rest, log, s =>
    if cmp e2 e1 = 0 then
      let r := yield e1 s
      if !r.1 then (false, ⟨e2 :: rest, log, r.2⟩)
      else intersectMatch cmp yield e1 rest (log ++ [CursorEvent.pull]) r.2
    else (true, ⟨e2 :: rest, log, s⟩)

/-- Loop `for e1 := range s1 { ... }` of `IntersectFunc` (lines 84-94). -/
def intersectOuter (cmp : T → T → Int) (yield : T → σ → Bool × σ) :
    List T → List T → List CursorEvent → σ → Bool × State T σ
  | [], pending, log, s => (true, ⟨pending, log, s⟩)
  | e1 :: s1, pending, log, s =>
    let k := skipLess cmp e1 pending log
    let r := intersectMatch cmp yield e1 k.1 k.2 s
    if !r.1 then (false, r.2)
    else intersectOuter cmp yield s1 r.2.pending r.2.log r.2.sink

/-- The sequence `IntersectFunc(s1, s2, cmp)` run against `y`. -/
def IntersectFunc (s1 s2 : List T) (cmp : T → T → Int) (y : T → σ → Bool × σ) (s : σ) :
    State T σ :=
  let r := (intersectOuter cmp (uniqueYielder y cmp) s1 s2 [CursorEvent.pull] (none, s)).2
  ⟨r.pending, r.log ++ [CursorEvent.release], r.sink.2⟩

/-- `Intersect(s1, s2)` is `IntersectFunc(s1, s2, cmp.Compare[T])`. -/
def Intersect [LinearOrder T] (s1 s2 : List T) (y : T → σ → Bool × σ) (s : σ) : State T σ :=
  IntersectFunc s1 s2 Compare y s

/-- The test `ok && cmp(e2, e1) == 0` on the cursor view. -/
def headEquals (cmp : T → T → Int) (e1 : T) : List T → Bool
  | [] => false
  | e2 :: _ => decide (cmp e2 e1 = 0)

/-- Loop `for e1 := range s1 { ... }` of `SubtractFunc` (lines 116-126): skip the smaller
values of the cursor, `continue` when the cursor shows a value equal to `e1`, otherwise
`if !yield(e1) { return }`. -/
def subtractOuter (cmp : T → T → Int) (yield : T → σ → Bool × σ) :
    List T → List T → List CursorEvent → σ → Bool × State T σ
  | [], pending, log, s => (true, ⟨pending, log, s⟩)
  | e1 :: s1, pending, log, s =>
    let k := skipLess cmp e1 pending log
    if headEquals cmp e1 k.1 then subtractOuter cmp yield s1 k.1 k.2 s
    else
      let r := yield e1 s
      if !r.1 then (false, ⟨k.1, k.2, r.2⟩)
      else subtractOuter cmp yield s1 k.1 k.2 r.2

/-- The sequence `SubtractFunc(s1, s2, cmp)` run against `y`. -/
def SubtractFunc (s1 s2 : List T) (cmp : T → T → Int) (y : T → σ → Bool × σ) (s : σ) :
    State T σ :=
  let r := (subtractOuter cmp (uniqueYielder y cmp) s1 s2 [CursorEvent.pull] (none, s)).2
  ⟨r.pending, r.log ++ [CursorEvent.release], r.sink.2⟩

/-- `Subtract(s1, s2)` is `SubtractFunc(s1, s2, cmp.Compare[T])`. -/
def Subtract [LinearOrder T] (s1 s2 : List T) (y : T → σ → Bool × σ) (s : σ) : State T σ :=
  SubtractFunc s1 s2 Compare y s

/-! ## Collecting an output sequence -/

/-- The consumer used by `slices.Collect`: append the value and ask for more. -/
def collector (x : T) (acc : List T) : Bool × List T := (true, acc ++ [x])

/-- Model of `slices.Collect(seq)`: run the sequence against the appending consumer. -/
def Collect (seq : (T → List T → Bool × List T) → List T → State T (List T)) : List T :=
  (seq collector []).sink

/-! ## Vocabulary of the specification -/

/-- A three-way comparator is lawful when it is sign-antisymmetric and transitive; it then
describes a total preorder. -/
structure Lawful (cmp : T → T → Int) : Prop where
  antisymm : ∀ a b, Int.sign (cmp a b) = - Int.sign (cmp b a)
  trans : ∀ a b c, cmp a b ≤ 0 → cmp b c ≤ 0 → cmp a c ≤ 0

/-- Non-decreasing under `cmp`: every adjacent pair `x, y` satisfies `cmp x y ≤ 0`. -/
abbrev NonDecreasing (cmp : T → T → Int) (l : List T) : Prop :=
  l.Chain' (fun x y => cmp x y ≤ 0)

/-- Strictly increasing under `cmp`: every adjacent pair `x, y` satisfies `cmp x y < 0`. -/
abbrev StrictlyIncreasing (cmp : T → T → Int) (l : List T) : Prop :=
  l.Chain' (fun x y => cmp x y < 0)

/-- Whether `l` contains an element that compares equal to `a`. -/
def hasEqual (cmp : T → T → Int) (l : List T) (a : T) : Bool :=
  l.any (fun b => decide (cmp a b = 0))

/-- Walk of `runHeads` after the element `prev`. -/
def runHeadsAux (cmp : T → T → Int) (prev : T) : List T → List T
  | [] => []
  | x :: xs =>
    if cmp prev x = 0 then runHeadsAux cmp x xs else x :: runHeadsAux cmp x xs

/-- The first element of each maximal run of adjacent `cmp`-equal elements of a list. -/
def runHeads (cmp : T → T → Int) : List T → List T
  | [] => []
  | x :: xs => x :: runHeadsAux cmp x xs

/-- Walk of `Compact` after the kept element `last`. -/
def compactFrom [DecidableEq T] (last : T) : List T → List T
  | [] => []
  | x :: xs => if x = last then compactFrom last xs else x :: compactFrom x xs

/-- Model of `slices.Compact` from the Go standard library: every run of consecutive equal
elements is replaced by a single copy. -/
def Compact [DecidableEq T] : List T → List T
  | [] => []
  | x :: xs => x :: compactFrom x xs

/-- Model of `simpleMerge` of the test file: concatenate, then `slices.Sort`. -/
def simpleMerge (s1 s2 : List Int) : List Int :=
  (s1 ++ s2).insertionSort (· ≤ ·)

/-- Model of `simpleUnion` of the test file. -/
def simpleUnion (s1 s2 : List Int) : List Int :=
  Compact (simpleMerge s1 s2)

/-- Model of `simpleIntersect` of the test file: the keys of `mapset(s1)` that are also keys
of `mapset(s2)`, sorted. -/
def simpleIntersect (s1 s2 : List Int) : List Int :=
  (s1.dedup.filter (fun x => decide (x ∈ s2))).insertionSort (· ≤ ·)

/-- Model of `simpleSubtract` of the test file: the keys of `mapset(s1)` that are not keys
of `mapset(s2)`, sorted. -/
def simpleSubtract (s1 s2 : List Int) : List Int :=
  (s1.dedup.filter (fun x => decide (x ∉ s2))).insertionSort (· ≤ ·)

/-- Marks every element of a list with the input it comes from (`false`: the first input,
`true`: the second input). -/
def tag (b : Bool) (l : List T) : List (T × Bool) := l.map (fun x => (x, b))

/-- A comparator on marked elements that only looks at the values. -/
def onValue (cmp : T → T → Int) (x y : T × Bool) : Int := cmp x.1 y.1

/-! ## Output lists

Closed forms of the values each operation pushes to its consumer, used in the proofs. -/

/-- Values `MergeFunc` pushes, in order, when the cursor view is `pending`. -/
def mergeList (cmp : T → T → Int) : List T → List T → List T
  | [], pending => pending
  | e1 :: s1, pending =>
    pending.takeWhile (fun b => decide (cmp b e1 < 0)) ++
      e1 :: mergeList cmp s1 (pending.dropWhile (fun b => decide (cmp b e1 < 0)))

/-- Values that pass the filter of `uniqueYielder` when its captured state is `prev`. -/
def uniqList (cmp : T → T → Int) : Option T → List T → List T
  | _, [] => []
  | none, x :: xs => x :: uniqList cmp (some x) xs
  | some p, x :: xs =>
    if cmp x p = 0 then uniqList cmp (some p) xs else x :: uniqList cmp (some x) xs

/-- Values `IntersectFunc` hands to its `uniqueYielder`. -/
def intersectList (cmp : T → T → Int) : List T → List T → List T
  | [], _ => []
  | e1 :: s1, pending =>
    let p := pending.dropWhile (fun b => decide (cmp b e1 < 0))
    List.replicate (p.takeWhile (fun b => decide (cmp b e1 = 0))).length e1 ++
      intersectList cmp s1 (p.dropWhile (fun b => decide (cmp b e1 = 0)))

/-- Values `SubtractFunc` hands to its `uniqueYielder`. -/
def subtractList (cmp : T → T → Int) : List T → List T → List T
  | [], _ => []
  | e1 :: s1, pending =>
    let p := pending.dropWhile (fun b => decide (cmp b e1 < 0))
    if headEquals cmp e1 p then subtractList cmp s1 p else e1 :: subtractList cmp s1 p

/-! ## Consumers that stop early -/

/-- A consumer that records every value it is handed, accepts its first `n - 1` values and
declines the `n`-th (and any later one, should it ever be called again). -/
def limitedCollector (n : Nat) (x : T) (acc : List T) : Bool × List T :=
  (decide (acc.length + 1 < n), acc ++ [x])

/-! ## The dedup filter as the specification words it -/

/-- One step of the dedup filter: `x` is kept when nothing has been kept yet or when
`cmp x prev ≠ 0` for `prev` the most recently kept element. -/
def dedupStep (cmp : T → T → Int) (kept : List T) (x : T) : List T :=
  match kept.getLast? with
  | none => kept ++ [x]
  | some prev => if cmp x prev ≠ 0 then kept ++ [x] else kept

/-- The dedup filter of the specification: scan the list left to right, starting with nothing
kept. -/
def dedup (cmp : T → T → Int) (l : List T) : List T :=
  l.foldl (dedupStep cmp) []

/-! ## A reflexive comparator that is not a preorder -/

/-- Integers that differ by at most one compare equal; otherwise the sign of the difference
decides.  `nearCmp x x = 0` holds, but comparing equal is not transitive. -/
def nearCmp (x y : Int) : Int :=
  if (x - y).natAbs ≤ 1 then 0 else x - y

namespace Variant

/-! ## The variant program: `MergeFunc` emits the second input first on equality

Only the test of the inner loop of `MergeFunc` changes (`cmp(e2, e1) <= 0` instead of
`cmp(e2, e1) < 0`); every other line of the package is kept. -/

/-- Inner loop of the variant `MergeFunc`:
`for ok && cmp(e2, e1) <= 0 { if !yield(e2) { return }; e2, ok = next() }`. -/
def mergeInner (cmp : T → T → Int) (yield : T → σ → Bool × σ) (e1 : T) :
    List T → List CursorEvent → σ → Bool × State T σ
  | [], log, s => (true, ⟨[], log, s⟩)
  | e2 :: rest, log, s =>
    if cmp e2 e1 ≤ 0 then
      let r := yield e2 s
      if !r.1 then (false, ⟨e2 :: rest, log, r.2⟩)
      else mergeInner cmp yield e1 rest (log ++ [CursorEvent.pull]) r.2
    else (true, ⟨e2 :: rest, log, s⟩)

/-- Loop `for e1 := range s1 { ... }` of the variant `MergeFunc`. -/
def mergeOuter (cmp : T → T → Int) (yield : T → σ → Bool × σ) :
    List T → List T → List CursorEvent → σ → Bool × State T σ
  | [], pending, log, s => (true, ⟨pending, log, s⟩)
  | e1 :: s1, pending, log, s =>
    let r := mergeInner cmp yield e1 pending log s
    if !r.1 then (false, r.2)
    else
      let y := yield e1 r.2.sink
      if !y.1 then (false, ⟨r.2.pending, r.2.log, y.2⟩)
      else mergeOuter cmp yield s1 r.2.pending r.2.log y.2

/-- Body of the variant `MergeFunc`; the final loop is the unchanged one. -/
def mergeBody (s1 s2 : List T) (cmp : T → T → Int) (yield : T → σ → Bool × σ) (s : σ) :
    State T σ :=
  let r := mergeOuter cmp yield s1 s2 [CursorEvent.pull] s
  if !r.1 then r.2
  else (Sorted.mergeDrain yield r.2.pending r.2.log r.2.sink).2

/-- The variant `MergeFunc(s1, s2, cmp)` run against `yield`. -/
def MergeFunc (s1 s2 : List T) (cmp : T → T → Int) (yield : T → σ → Bool × σ) (s : σ) :
    State T σ :=
  let r := mergeBody s1 s2 cmp yield s
  ⟨r.pending, r.log ++ [CursorEvent.release], r.sink⟩

/-- `UnionFunc` of the variant program: the unchanged text, which ranges over the variant
`MergeFunc`. -/
def UnionFunc (s1 s2 : List T) (cmp : T → T → Int) (y : T → σ → Bool × σ) (s : σ) :
    State T σ :=
  let r := MergeFunc s1 s2 cmp (uniqueYielder y cmp) (none, s)
  ⟨r.pending, r.log, r.sink.2⟩

/-- `IntersectFunc` of the variant program: the unchanged text; it never calls `MergeFunc`. -/
def IntersectFunc (s1 s2 : List T) (cmp : T → T → Int) (y : T → σ → Bool × σ) (s : σ) :
    State T σ :=
  let r := (intersectOuter cmp (uniqueYielder y cmp) s1 s2 [CursorEvent.pull] (none, s)).2
  ⟨r.pending, r.log ++ [CursorEvent.release], r.sink.2⟩

/-- `SubtractFunc` of the variant program: the unchanged text; it never calls `MergeFunc`. -/
def SubtractFunc (s1 s2 : List T) (cmp : T → T → Int) (y : T → σ → Bool × σ) (s : σ) :
    State T σ :=
  let r := (subtractOuter cmp (uniqueYielder y cmp) s1 s2 [CursorEvent.pull] (none, s)).2
  ⟨r.pending, r.log ++ [CursorEvent.release], r.sink.2⟩

end Variant

/-! ## The operations push their output lists -/

theorem feed_append (yield : T → σ → Bool × σ) (xs ys : List T) (s : σ) :
    feed yield (xs ++ ys) s =
      if (feed yield xs s).1 then feed yield ys (feed yield xs s).2
      else (false, (feed yield xs s).2) := by
  induction xs generalizing s with
  | nil => simp [feed]
  | cons x xs ih =>
    simp only [List.cons_append, feed]
    by_cases h : (yield x s).1 = true
    · simp [h, ih]
    · simp [h]

theorem feed_fst_false (yield : T → σ → Bool × σ) (xs : List T) (s : σ)
    (h : (feed yield xs s).1 = false) : feed yield xs s = (false, (feed yield xs s).2) := by
  rw [← h]

theorem feed_collector (xs acc : List T) : feed collector xs acc = (true, acc ++ xs) := by
  induction xs generalizing acc with
  | nil => simp [feed]
  | cons x xs ih => simp [feed, collector, ih]

theorem skipLess_fst (cmp : T → T → Int) (e1 : T) (p : List T) (log : List CursorEvent) :
    (skipLess cmp e1 p log).1 = p.dropWhile (fun b => decide (cmp b e1 < 0)) := by
  induction p generalizing log with
  | nil => simp [skipLess]
  | cons b p ih =>
    by_cases h : cmp b e1 < 0
    · simp [skipLess, h, ih]
    · simp [skipLess, h]

theorem mergeInner_spec (cmp : T → T → Int) (yield : T → σ → Bool × σ) (e1 : T)
    (p : List T) (log : List CursorEvent) (s : σ) :
    (mergeInner cmp yield e1 p log s).1
        = (feed yield (p.takeWhile (fun b => decide (cmp b e1 < 0))) s).1 ∧
      (mergeInner cmp yield e1 p log s).2.sink
        = (feed yield (p.takeWhile (fun b => decide (cmp b e1 < 0))) s).2 ∧
      ((mergeInner cmp yield e1 p log s).1 = true →
        (mergeInner cmp yield e1 p log s).2.pending
          = p.dropWhile (fun b => decide (cmp b e1 < 0))) := by
  induction p generalizing log s with
  | nil => simp [mergeInner, feed]
  | cons b p ih =>
    by_cases h : cmp b e1 < 0
    · by_cases hy : (yield b s).1 = true
      · simpa [mergeInner, feed, h, hy] using ih _ _
      · simp [mergeInner, feed, h, hy]
    · simp [mergeInner, feed, h]

theorem mergeDrain_spec (yield : T → σ → Bool × σ) (p : List T) (log : List CursorEvent)
    (s : σ) : (mergeDrain yield p log s).2.sink = (feed yield p s).2 := by
  induction p generalizing log s with
  | nil => simp [mergeDrain, feed]
  | cons b p ih =>
    by_cases hy : (yield b s).1 = true
    · simpa [mergeDrain, feed, hy] using ih _ _
    · simp [mergeDrain, feed, hy]

theorem mergeOuter_spec (cmp : T → T → Int) (yield : T → σ → Bool × σ)
    (s1 p : List T) (log : List CursorEvent) (s : σ) :
    (if !(mergeOuter cmp yield s1 p log s).1 then (mergeOuter cmp yield s1 p log s).2
      else (mergeDrain yield (mergeOuter cmp yield s1 p log s).2.pending
        (mergeOuter cmp yield s1 p log s).2.log (mergeOuter cmp yield s1 p log s).2.sink).2).sink
      = (feed yield (mergeList cmp s1 p) s).2 := by
  induction s1 generalizing p log s with
  | nil => simp [mergeOuter, mergeList, mergeDrain_spec]
  | cons e1 s1 ih =>
    obtain ⟨h1, h2, h3⟩ := mergeInner_spec cmp yield e1 p log s
    simp only [mergeOuter, mergeList, feed_append]
    by_cases hi : (mergeInner cmp yield e1 p log s).1 = true
    · rw [hi] at h1
      have h3 := h3 hi
      simp only [hi, ← h1, Bool.not_true, Bool.false_eq_true, if_false, if_true, feed]
      by_cases hy : (yield e1 (mergeInner cmp yield e1 p log s).2.sink).1 = true
      · simp only [hy, Bool.not_true, Bool.false_eq_true, if_false]
        rw [ih, h3, h2]
        simp [← h2, hy]
      · simp [hy, ← h2]
    · have hi' : (mergeInner cmp yield e1 p log s).1 = false := by simpa using hi
      rw [hi'] at h1
      simp [hi', ← h1, h2]

/-- For every consumer, `MergeFunc` leaves it in the state reached by pushing `mergeList`. -/
theorem MergeFunc_sink (s1 s2 : List T) (cmp : T → T → Int) (yield : T → σ → Bool × σ)
    (s : σ) : (MergeFunc s1 s2 cmp yield s).sink = (feed yield (mergeList cmp s1 s2) s).2 := by
  simp only [MergeFunc, mergeBody]
  exact mergeOuter_spec cmp yield s1 s2 _ s

theorem collect_MergeFunc (s1 s2 : List T) (cmp : T → T → Int) :
    Collect (MergeFunc s1 s2 cmp) = mergeList cmp s1 s2 := by
  simp [Collect, MergeFunc_sink, feed_collector]

theorem feed_uniqueYielder (y : T → σ → Bool × σ) (cmp : T → T → Int) (xs : List T)
    (prev : Option T) (s : σ) :
    (feed (uniqueYielder y cmp) xs (prev, s)).1 = (feed y (uniqList cmp prev xs) s).1 ∧
      (feed (uniqueYielder y cmp) xs (prev, s)).2.2 = (feed y (uniqList cmp prev xs) s).2 := by
  induction xs generalizing prev s with
  | nil => cases prev <;> simp [feed, uniqList]
  | cons x xs ih =>
    cases prev with
    | none =>
      by_cases hy : (y x s).1 = true
      · simpa [feed, uniqList, uniqueYielder, hy] using ih _ _
      · simp [feed, uniqList, uniqueYielder, hy]
    | some p =>
      by_cases hc : cmp x p = 0
      · simpa [feed, uniqList, uniqueYielder, hc] using ih _ _
      · by_cases hy : (y x s).1 = true
        · simpa [feed, uniqList, uniqueYielder, hc, hy] using ih _ _
        · simp [feed, uniqList, uniqueYielder, hc, hy]

/-- For every consumer, `UnionFunc` leaves it in the state reached by pushing the
deduplicated `mergeList`. -/
theorem UnionFunc_sink (s1 s2 : List T) (cmp : T → T → Int) (y : T → σ → Bool × σ) (s : σ) :
    (UnionFunc s1 s2 cmp y s).sink
      = (feed y (uniqList cmp none (mergeList cmp s1 s2)) s).2 := by
  simp only [UnionFunc, MergeFunc_sink]
  exact (feed_uniqueYielder y cmp _ none s).2

theorem collect_UnionFunc (s1 s2 : List T) (cmp : T → T → Int) :
    Collect (UnionFunc s1 s2 cmp) = uniqList cmp none (mergeList cmp s1 s2) := by
  simp [Collect, UnionFunc_sink, feed_collector]

theorem intersectMatch_spec (cmp : T → T → Int) (yield : T → σ → Bool × σ) (e1 : T)
    (p : List T) (log : List CursorEvent) (s : σ) :
    (intersectMatch cmp yield e1 p log s).1
        = (feed yield (List.replicate
            (p.takeWhile (fun b => decide (cmp b e1 = 0))).length e1) s).1 ∧
      (intersectMatch cmp yield e1 p log s).2.sink
        = (feed yield (List.replicate
            (p.takeWhile (fun b => decide (cmp b e1 = 0))).length e1) s).2 ∧
      ((intersectMatch cmp yield e1 p log s).1 = true →
        (intersectMatch cmp yield e1 p log s).2.pending
          = p.dropWhile (fun b => decide (cmp b e1 = 0))) := by
  induction p generalizing log s with
  | nil => simp [intersectMatch, feed]
  | cons b p ih =>
    by_cases h : cmp b e1 = 0
    · by_cases hy : (yield e1 s).1 = true
      · simpa [intersectMatch, feed, h, hy, List.replicate_succ] using ih _ _
      · simp [intersectMatch, feed, h, hy, List.replicate_succ]
    · simp [intersectMatch, feed, h]

theorem intersectOuter_spec (cmp : T → T → Int) (yield : T → σ → Bool × σ)
    (s1 p : List T) (log : List CursorEvent) (s : σ) :
    (intersectOuter cmp yield s1 p log s).2.sink
      = (feed yield (intersectList cmp s1 p) s).2 := by
  induction s1 generalizing p log s with
  | nil => simp [intersectOuter, intersectList, feed]
  | cons e1 s1 ih =>
    obtain ⟨h1, h2, h3⟩ := intersectMatch_spec cmp yield e1
      (skipLess cmp e1 p log).1 (skipLess cmp e1 p log).2 s
    simp only [intersectOuter, intersectList, feed_append, skipLess_fst]
    rw [skipLess_fst] at h1 h2 h3
    generalize intersectMatch cmp yield e1 (p.dropWhile (fun b => decide (cmp b e1 < 0)))
      (skipLess cmp e1 p log).2 s = r at h1 h2 h3 ⊢
    by_cases hi : r.1 = true
    · rw [hi] at h1
      have h3 := h3 hi
      simp only [hi, ← h1, Bool.not_true, Bool.false_eq_true, if_false, if_true]
      rw [ih, h3, h2]
    · have hi' : r.1 = false := by simpa using hi
      rw [hi'] at h1
      simp [hi', ← h1, h2]

/-- For every consumer, `IntersectFunc` leaves it in the state reached by pushing the
deduplicated `intersectList`. -/
theorem IntersectFunc_sink (s1 s2 : List T) (cmp : T → T → Int) (y : T → σ → Bool × σ)
    (s : σ) : (IntersectFunc s1 s2 cmp y s).sink
      = (feed y (uniqList cmp none (intersectList cmp s1 s2)) s).2 := by
  simp only [IntersectFunc, intersectOuter_spec]
  exact (feed_uniqueYielder y cmp _ none s).2

theorem collect_IntersectFunc (s1 s2 : List T) (cmp : T → T → Int) :
    Collect (IntersectFunc s1 s2 cmp) = uniqList cmp none (intersectList cmp s1 s2) := by
  simp [Collect, IntersectFunc_sink, feed_collector]

theorem subtractOuter_spec (cmp : T → T → Int) (yield : T → σ → Bool × σ)
    (s1 p : List T) (log : List CursorEvent) (s : σ) :
    (subtractOuter cmp yield s1 p log s).2.sink
      = (feed yield (subtractList cmp s1 p) s).2 := by
  induction s1 generalizing p log s with
  | nil => simp [subtractOuter, subtractList, feed]
  | cons e1 s1 ih =>
    simp only [subtractOuter, subtractList, skipLess_fst]
    by_cases hh : headEquals cmp e1 (p.dropWhile (fun b => decide (cmp b e1 < 0))) = true
    · simp only [hh, if_true]
      rw [ih]
    · by_cases hy : (yield e1 s).1 = true
      · simp only [hh, hy, Bool.not_true, Bool.false_eq_true, if_false, feed]
        rw [ih]
      · simp [hh, hy, feed]

/-- For every consumer, `SubtractFunc` leaves it in the state reached by pushing the
deduplicated `subtractList`. -/
theorem SubtractFunc_sink (s1 s2 : List T) (cmp : T → T → Int) (y : T → σ → Bool × σ)
    (s : σ) : (SubtractFunc s1 s2 cmp y s).sink
      = (feed y (uniqList cmp none (subtractList cmp s1 s2)) s).2 := by
  simp only [SubtractFunc, subtractOuter_spec]
  exact (feed_uniqueYielder y cmp _ none s).2

theorem collect_SubtractFunc (s1 s2 : List T) (cmp : T → T → Int) :
    Collect (SubtractFunc s1 s2 cmp) = uniqList cmp none (subtractList cmp s1 s2) := by
  simp [Collect, SubtractFunc_sink, feed_collector]

/-! ## Lawful comparators -/

theorem Lawful.lt_iff {cmp : T → T → Int} (h : Lawful cmp) (a b : T) :
    cmp a b < 0 ↔ 0 < cmp b a := by
  have h1 := h.antisymm a b
  constructor
  · intro hab
    rw [Int.sign_eq_neg_one_iff_neg.mpr hab] at h1
    exact Int.sign_eq_one_iff_pos.mp (by omega)
  · intro hba
    rw [Int.sign_eq_one_iff_pos.mpr hba] at h1
    exact Int.sign_eq_neg_one_iff_neg.mp h1

theorem Lawful.eq_comm {cmp : T → T → Int} (h : Lawful cmp) (a b : T) :
    cmp a b = 0 ↔ cmp b a = 0 := by
  have h1 := h.lt_iff a b
  have h2 := h.lt_iff b a
  omega

theorem Lawful.refl {cmp : T → T → Int} (h : Lawful cmp) (a : T) : cmp a a = 0 := by
  have h1 := h.lt_iff a a
  omega

theorem Lawful.le_of_not_lt {cmp : T → T → Int} (h : Lawful cmp) {a b : T}
    (hab : ¬ cmp a b < 0) : cmp b a ≤ 0 := by
  have h1 := h.lt_iff b a
  have h2 := h.eq_comm a b
  omega

theorem Lawful.lt_of_lt_of_le {cmp : T → T → Int} (h : Lawful cmp) {a b c : T}
    (hab : cmp a b < 0) (hbc : cmp b c ≤ 0) : cmp a c < 0 := by
  by_contra hac
  have h1 := h.trans b c a hbc (h.le_of_not_lt hac)
  have h2 := h.lt_iff a b
  omega

theorem Lawful.lt_of_le_of_lt {cmp : T → T → Int} (h : Lawful cmp) {a b c : T}
    (hab : cmp a b ≤ 0) (hbc : cmp b c < 0) : cmp a c < 0 := by
  by_contra hac
  have h1 := h.trans c a b (h.le_of_not_lt hac) hab
  have h2 := h.lt_iff b c
  omega

theorem Lawful.chain_iff_pairwise {cmp : T → T → Int} (h : Lawful cmp) (l : List T) :
    NonDecreasing cmp l ↔ l.Pairwise (fun x y => cmp x y ≤ 0) := by
  haveI : IsTrans T (fun x y => cmp x y ≤ 0) := ⟨h.trans⟩
  exact List.chain'_iff_pairwise

theorem Lawful.strict_iff_pairwise {cmp : T → T → Int} (h : Lawful cmp) (l : List T) :
    StrictlyIncreasing cmp l ↔ l.Pairwise (fun x y => cmp x y < 0) := by
  haveI : IsTrans T (fun x y => cmp x y < 0) :=
    ⟨fun _ _ _ hab hbc => h.lt_of_lt_of_le hab (le_of_lt hbc)⟩
  exact List.chain'_iff_pairwise

theorem Compare_lt_iff [LinearOrder T] (x y : T) : Compare x y < 0 ↔ x < y := by
  unfold Compare
  split_ifs <;> simp_all

theorem Compare_eq_iff [LinearOrder T] (x y : T) : Compare x y = 0 ↔ x = y := by
  unfold Compare
  split_ifs with h1 h2
  · simpa using ne_of_lt h1
  · simpa using ne_of_gt h2
  · simpa using le_antisymm (not_lt.mp h2) (not_lt.mp h1)

theorem Compare_le_iff [LinearOrder T] (x y : T) : Compare x y ≤ 0 ↔ x ≤ y := by
  rw [le_iff_lt_or_eq, Compare_lt_iff, Compare_eq_iff, le_iff_lt_or_eq]

/-- The natural-order comparator `cmp.Compare` is lawful. -/
theorem Compare_lawful [LinearOrder T] : Lawful (Compare : T → T → Int) := by
  constructor
  · intro a b
    unfold Compare
    rcases lt_trichotomy a b with h | h | h
    · simp [h, not_lt_of_gt h]
    · simp [h]
    · simp [h, not_lt_of_gt h]
  · intro a b c hab hbc
    rw [Compare_le_iff] at *
    exact le_trans hab hbc

/-! ## `mergeList` -/

theorem mergeList_perm (cmp : T → T → Int) (s1 p : List T) :
    (mergeList cmp s1 p).Perm (s1 ++ p) := by
  induction s1 generalizing p with
  | nil => simp [mergeList]
  | cons e1 s1 ih =>
    simp only [mergeList, List.cons_append]
    refine List.perm_middle.trans (List.Perm.cons e1 ?_)
    refine (List.Perm.append_left _ (ih _)).trans ?_
    refine List.perm_append_comm_assoc _ _ _ |>.trans ?_
    simp [List.takeWhile_append_dropWhile]

theorem mem_mergeList (cmp : T → T → Int) (s1 p : List T) (x : T) :
    x ∈ mergeList cmp s1 p ↔ x ∈ s1 ∨ x ∈ p := by
  rw [(mergeList_perm cmp s1 p).mem_iff, List.mem_append]

theorem dropWhile_lt_ge {cmp : T → T → Int} (h : Lawful cmp) (e1 : T) (p : List T)
    (hp : p.Pairwise (fun x y => cmp x y ≤ 0)) :
    ∀ b ∈ p.dropWhile (fun b => decide (cmp b e1 < 0)), cmp e1 b ≤ 0 := by
  induction p with
  | nil => simp
  | cons a p ih =>
    rw [List.pairwise_cons] at hp
    by_cases ha : cmp a e1 < 0
    · simpa [List.dropWhile_cons, ha] using ih hp.2
    · intro b hb
      simp only [List.dropWhile_cons, ha, decide_False, Bool.false_eq_true, if_false,
        List.mem_cons] at hb
      rcases hb with rfl | hb
      · exact h.le_of_not_lt ha
      · exact h.trans _ _ _ (h.le_of_not_lt ha) (hp.1 b hb)

theorem mergeList_pairwise {cmp : T → T → Int} (h : Lawful cmp) (s1 p : List T)
    (h1 : s1.Pairwise (fun x y => cmp x y ≤ 0)) (hp : p.Pairwise (fun x y => cmp x y ≤ 0)) :
    (mergeList cmp s1 p).Pairwise (fun x y => cmp x y ≤ 0) := by
  induction s1 generalizing p with
  | nil => simpa [mergeList] using hp
  | cons e1 s1 ih =>
    rw [List.pairwise_cons] at h1
    have hsplit := List.takeWhile_append_dropWhile (fun b => decide (cmp b e1 < 0)) p
    have hp' := hp
    rw [← hsplit, List.pairwise_append] at hp'
    obtain ⟨htk, hdk, hcross⟩ := hp'
    simp only [mergeList]
    rw [List.pairwise_append]
    refine ⟨htk, ?_, ?_⟩
    · rw [List.pairwise_cons]
      refine ⟨?_, ih _ h1.2 hdk⟩
      intro b hb
      rw [mem_mergeList] at hb
      rcases hb with hb | hb
      · exact h1.1 b hb
      · exact dropWhile_lt_ge h e1 p hp b hb
    · intro a ha b hb
      have hae : cmp a e1 < 0 := by simpa using List.mem_takeWhile_imp ha
      rw [List.mem_cons, mem_mergeList] at hb
      rcases hb with rfl | hb | hb
      · exact le_of_lt hae
      · exact le_of_lt (h.lt_of_lt_of_le hae (h1.1 b hb))
      · exact hcross a ha b hb

/-! ## `uniqList` -/

theorem uniqList_sublist (cmp : T → T → Int) (prev : Option T) (l : List T) :
    (uniqList cmp prev l).Sublist l := by
  induction l generalizing prev with
  | nil => cases prev <;> simp [uniqList]
  | cons x xs ih =>
    cases prev with
    | none => simpa [uniqList] using ih _
    | some p =>
      by_cases hc : cmp x p = 0
      · simpa [uniqList, hc] using (ih (some p)).cons x
      · simpa [uniqList, hc] using ih _

theorem uniqList_some_gt {cmp : T → T → Int} (h : Lawful cmp) (p : T) (l : List T)
    (hl : (p :: l).Pairwise (fun x y => cmp x y ≤ 0)) :
    (p :: uniqList cmp (some p) l).Pairwise (fun x y => cmp x y < 0) := by
  induction l generalizing p with
  | nil => simp [uniqList]
  | cons x xs ih =>
    rw [List.pairwise_cons] at hl
    have hx := hl.2
    rw [List.pairwise_cons] at hx
    by_cases hc : cmp x p = 0
    · simp only [uniqList, hc, if_true]
      refine ih p ?_
      rw [List.pairwise_cons]
      exact ⟨fun b hb => hl.1 b (List.mem_cons_of_mem _ hb), hx.2⟩
    · simp only [uniqList, hc, if_false]
      have hpx : cmp p x < 0 := by
        have h1 := hl.1 x (List.mem_cons_self _ _)
        have h2 := h.eq_comm p x
        omega
      have ih' := ih x hl.2
      rw [List.pairwise_cons]
      refine ⟨?_, ih'⟩
      rw [List.pairwise_cons] at ih'
      intro b hb
      rcases List.mem_cons.mp hb with rfl | hb
      · exact hpx
      · exact h.lt_of_lt_of_le hpx (le_of_lt (ih'.1 b hb))

theorem uniqList_none_strict {cmp : T → T → Int} (h : Lawful cmp) (l : List T)
    (hl : l.Pairwise (fun x y => cmp x y ≤ 0)) :
    (uniqList cmp none l).Pairwise (fun x y => cmp x y < 0) := by
  cases l with
  | nil => simp [uniqList]
  | cons x xs => simpa [uniqList] using uniqList_some_gt h x xs hl

theorem uniqList_replicate_self {cmp : T → T → Int} (h : Lawful cmp) (a : T) (n : Nat)
    (l : List T) :
    uniqList cmp (some a) (List.replicate n a ++ l) = uniqList cmp (some a) l := by
  induction n with
  | zero => simp
  | succ n ih => simp [List.replicate_succ, uniqList, h.refl a, ih]

theorem uniqList_replicate {cmp : T → T → Int} (h : Lawful cmp) (a : T) (n : Nat)
    (l : List T) (prev : Option T) (hprev : ∀ p, prev = some p → cmp a p ≠ 0) :
    uniqList cmp prev (List.replicate n a ++ l) =
      if n = 0 then uniqList cmp prev l else a :: uniqList cmp (some a) l := by
  cases n with
  | zero => simp
  | succ n =>
    cases prev with
    | none => simp [List.replicate_succ, uniqList, uniqList_replicate_self h]
    | some p =>
      have := hprev p rfl
      simp [List.replicate_succ, uniqList, uniqList_replicate_self h, this]

/-! ## `runHeads` -/

theorem runHeadsAux_sublist (cmp : T → T → Int) (q : T) (l : List T) :
    (runHeadsAux cmp q l).Sublist l := by
  induction l generalizing q with
  | nil => simp [runHeadsAux]
  | cons x xs ih =>
    by_cases hc : cmp q x = 0
    · simpa [runHeadsAux, hc] using (ih x).cons x
    · simpa [runHeadsAux, hc] using ih x

theorem runHeadsAux_gt {cmp : T → T → Int} (h : Lawful cmp) (q : T) (l : List T)
    (hl : (q :: l).Pairwise (fun x y => cmp x y ≤ 0)) :
    (q :: runHeadsAux cmp q l).Pairwise (fun x y => cmp x y < 0) := by
  induction l generalizing q with
  | nil => simp [runHeadsAux]
  | cons x xs ih =>
    rw [List.pairwise_cons] at hl
    have ih' := ih x hl.2
    have hqx := hl.1 x (List.mem_cons_self _ _)
    rw [List.pairwise_cons] at ih' ⊢
    by_cases hc : cmp q x = 0
    · simp only [runHeadsAux, hc, if_true]
      exact ⟨fun b hb => h.lt_of_le_of_lt hqx (ih'.1 b hb), ih'.2⟩
    · simp only [runHeadsAux, hc, if_false]
      have hlt : cmp q x < 0 := by omega
      refine ⟨?_, List.pairwise_cons.mpr ih'⟩
      intro b hb
      rcases List.mem_cons.mp hb with rfl | hb
      · exact hlt
      · exact h.lt_of_lt_of_le hlt (le_of_lt (ih'.1 b hb))

theorem runHeads_strict {cmp : T → T → Int} (h : Lawful cmp) (l : List T)
    (hl : l.Pairwise (fun x y => cmp x y ≤ 0)) :
    (runHeads cmp l).Pairwise (fun x y => cmp x y < 0) := by
  cases l with
  | nil => simp [runHeads]
  | cons x xs => simpa [runHeads] using runHeadsAux_gt h x xs hl

/-! ## The cursor view of a sorted second input -/

theorem dropWhile_eq_gt {cmp : T → T → Int} (h : Lawful cmp) (a : T) (p : List T)
    (hp : p.Pairwise (fun x y => cmp x y ≤ 0)) (hge : ∀ b ∈ p, cmp a b ≤ 0) :
    ∀ b ∈ p.dropWhile (fun b => decide (cmp b a = 0)), cmp a b < 0 := by
  induction p with
  | nil => simp
  | cons c p ih =>
    rw [List.pairwise_cons] at hp
    by_cases hc : cmp c a = 0
    · simpa [List.dropWhile_cons, hc] using
        ih hp.2 (fun b hb => hge b (List.mem_cons_of_mem _ hb))
    · intro b hb
      simp only [List.dropWhile_cons, hc, decide_False, Bool.false_eq_true, if_false,
        List.mem_cons] at hb
      have hac : cmp a c < 0 := by
        have h1 := hge c (List.mem_cons_self _ _)
        have h2 := h.eq_comm a c
        omega
      rcases hb with rfl | hb
      · exact hac
      · exact h.lt_of_lt_of_le hac (hp.1 b hb)

theorem hasEqual_append (cmp : T → T → Int) (l1 l2 : List T) (a : T) :
    hasEqual cmp (l1 ++ l2) a = (hasEqual cmp l1 a || hasEqual cmp l2 a) := by
  simp [hasEqual]

theorem hasEqual_eq_false_of_lt {cmp : T → T → Int} (h : Lawful cmp) (l : List T) (a : T)
    (hl : ∀ b ∈ l, cmp b a < 0) : hasEqual cmp l a = false := by
  simp only [hasEqual, List.any_eq_false, decide_eq_true_eq]
  intro b hb hab
  have h1 := hl b hb
  have h2 := h.eq_comm a b
  omega

theorem hasEqual_eq_false_of_gt {cmp : T → T → Int} (_h : Lawful cmp) (l : List T) (a : T)
    (hl : ∀ b ∈ l, cmp a b < 0) : hasEqual cmp l a = false := by
  simp only [hasEqual, List.any_eq_false, decide_eq_true_eq]
  intro b hb hab
  have h1 := hl b hb
  omega

/-- Dropping the values below `a` from the cursor does not change which values at or above
`a` have an equal in it. -/
theorem hasEqual_dropWhile_lt {cmp : T → T → Int} (h : Lawful cmp) (p : List T) (a x : T)
    (hax : cmp a x ≤ 0) :
    hasEqual cmp (p.dropWhile (fun b => decide (cmp b a < 0))) x = hasEqual cmp p x := by
  conv_rhs => rw [← List.takeWhile_append_dropWhile (fun b => decide (cmp b a < 0)) p]
  rw [hasEqual_append,
    hasEqual_eq_false_of_lt h (p.takeWhile (fun b => decide (cmp b a < 0))) x, Bool.false_or]
  intro b hb
  have hba : cmp b a < 0 := by simpa using List.mem_takeWhile_imp hb
  exact h.lt_of_lt_of_le hba hax

/-- Dropping the values equal to `a` from the cursor does not change which values above `a`
have an equal in it. -/
theorem hasEqual_dropWhile_eq {cmp : T → T → Int} (h : Lawful cmp) (p : List T) (a x : T)
    (hax : cmp a x < 0) :
    hasEqual cmp (p.dropWhile (fun b => decide (cmp b a = 0))) x = hasEqual cmp p x := by
  conv_rhs => rw [← List.takeWhile_append_dropWhile (fun b => decide (cmp b a = 0)) p]
  rw [hasEqual_append,
    hasEqual_eq_false_of_lt h (p.takeWhile (fun b => decide (cmp b a = 0))) x, Bool.false_or]
  intro b hb
  have hba : cmp b a = 0 := by simpa using List.mem_takeWhile_imp hb
  exact h.lt_of_le_of_lt (le_of_eq hba) hax

theorem hasEqual_eq_takeWhile {cmp : T → T → Int} (h : Lawful cmp) (a : T) (p : List T)
    (hp : p.Pairwise (fun x y => cmp x y ≤ 0)) (hge : ∀ b ∈ p, cmp a b ≤ 0) :
    hasEqual cmp p a = decide ((p.takeWhile (fun b => decide (cmp b a = 0))).length ≠ 0) := by
  cases p with
  | nil => simp [hasEqual]
  | cons c p =>
    by_cases hc : cmp c a = 0
    · have hc' : cmp a c = 0 := (h.eq_comm a c).mpr hc
      simp [hasEqual, List.takeWhile_cons, hc, hc']
    · have hac : cmp a c < 0 := by
        have h1 := hge c (List.mem_cons_self _ _)
        have h2 := h.eq_comm a c
        omega
      rw [hasEqual_eq_false_of_gt h]
      · simp [List.takeWhile_cons, hc]
      · intro b hb
        rcases List.mem_cons.mp hb with rfl | hb
        · exact hac
        · exact h.lt_of_lt_of_le hac ((List.pairwise_cons.mp hp).1 b hb)

theorem dropWhile_pairwise (cmp : T → T → Int) (f : T → Bool) (p : List T)
    (hp : p.Pairwise (fun x y => cmp x y ≤ 0)) :
    (p.dropWhile f).Pairwise (fun x y => cmp x y ≤ 0) :=
  hp.sublist (List.dropWhile_sublist f)

theorem dropWhile_of_gt {cmp : T → T → Int} (h : Lawful cmp) (a : T) (p : List T)
    (hgt : ∀ b ∈ p, cmp a b < 0) :
    p.dropWhile (fun b => decide (cmp b a < 0)) = p ∧
      p.takeWhile (fun b => decide (cmp b a = 0)) = [] ∧
      p.dropWhile (fun b => decide (cmp b a = 0)) = p := by
  cases p with
  | nil => simp
  | cons c p =>
    have h1 := hgt c (List.mem_cons_self _ _)
    have h2 := h.lt_iff a c
    have h3 : ¬ cmp c a < 0 := by omega
    have h4 : ¬ cmp c a = 0 := by omega
    simp [List.dropWhile_cons, List.takeWhile_cons, h3, h4]

/-! ## `IntersectFunc` on sorted inputs -/

theorem intersectList_cons_of_gt {cmp : T → T → Int} (h : Lawful cmp) (a : T)
    (A p : List T) (hgt : ∀ b ∈ p, cmp a b < 0) :
    intersectList cmp (a :: A) p = intersectList cmp A p := by
  obtain ⟨h1, h2, h3⟩ := dropWhile_of_gt h a p hgt
  simp only [intersectList, h1, h2, h3]
  simp

theorem intersect_step {cmp : T → T → Int} (h : Lawful cmp) (a : T) (A p : List T)
    (prev : Option T)
    (hA : (a :: A).Pairwise (fun x y => cmp x y ≤ 0))
    (hp : p.Pairwise (fun x y => cmp x y ≤ 0))
    (hprev : ∀ q, prev = some q → cmp q a < 0)
    (ih : ∀ prev' : Option T, (∀ q, prev' = some q → cmp q a ≤ 0) →
      uniqList cmp prev' (intersectList cmp A
          ((p.dropWhile (fun b => decide (cmp b a < 0))).dropWhile
            (fun b => decide (cmp b a = 0))))
        = (runHeadsAux cmp a A).filter (hasEqual cmp
          ((p.dropWhile (fun b => decide (cmp b a < 0))).dropWhile
            (fun b => decide (cmp b a = 0))))) :
    uniqList cmp prev (intersectList cmp (a :: A) p)
      = (a :: runHeadsAux cmp a A).filter (hasEqual cmp p) := by
  have hp1 := dropWhile_pairwise cmp (fun b => decide (cmp b a < 0)) p hp
  have hge := dropWhile_lt_ge h a p hp
  have hgt := runHeadsAux_gt h a A hA
  rw [List.pairwise_cons] at hgt
  have hrest : (runHeadsAux cmp a A).filter (hasEqual cmp p)
      = (runHeadsAux cmp a A).filter (hasEqual cmp
          ((p.dropWhile (fun b => decide (cmp b a < 0))).dropWhile
            (fun b => decide (cmp b a = 0)))) := by
    apply List.filter_congr
    intro x hx
    rw [hasEqual_dropWhile_eq h _ a x (hgt.1 x hx),
      hasEqual_dropWhile_lt h _ a x (le_of_lt (hgt.1 x hx))]
  have hhead : hasEqual cmp p a = decide
      (((p.dropWhile (fun b => decide (cmp b a < 0))).takeWhile
        (fun b => decide (cmp b a = 0))).length ≠ 0) := by
    rw [← hasEqual_dropWhile_lt h p a a (le_of_eq (h.refl a))]
    exact hasEqual_eq_takeWhile h a _ hp1 hge
  have hne : ∀ q, prev = some q → cmp a q ≠ 0 := by
    intro q hq
    have h1 := hprev q hq
    have h2 := h.eq_comm a q
    omega
  simp only [intersectList]
  rw [uniqList_replicate h a _ _ prev hne, List.filter_cons, hhead, hrest]
  by_cases hn : ((p.dropWhile (fun b => decide (cmp b a < 0))).takeWhile
        (fun b => decide (cmp b a = 0))).length = 0
  · simp only [hn, if_true, ne_eq, not_true_eq_false, decide_False, Bool.false_eq_true,
      if_false]
    exact ih prev (fun q hq => le_of_lt (hprev q hq))
  · simp only [hn, if_false, ne_eq, not_false_eq_true, decide_True, if_true]
    rw [ih (some a) (fun q hq => by cases hq; exact le_of_eq (h.refl _))]

theorem intersect_aux {cmp : T → T → Int} (h : Lawful cmp) (A p : List T) (q : T)
    (prev : Option T)
    (hA : (q :: A).Pairwise (fun x y => cmp x y ≤ 0))
    (hp : p.Pairwise (fun x y => cmp x y ≤ 0))
    (hq : ∀ b ∈ p, cmp q b < 0)
    (hprev : ∀ r, prev = some r → cmp r q ≤ 0) :
    uniqList cmp prev (intersectList cmp A p)
      = (runHeadsAux cmp q A).filter (hasEqual cmp p) := by
  induction A generalizing p q prev with
  | nil => cases prev <;> simp [intersectList, runHeadsAux, uniqList]
  | cons a A ih =>
    have hA' := hA
    rw [List.pairwise_cons] at hA'
    have hqa := hA'.1 a (List.mem_cons_self _ _)
    by_cases hc : cmp q a = 0
    · have hgt : ∀ b ∈ p, cmp a b < 0 := fun b hb =>
        h.lt_of_le_of_lt (le_of_eq ((h.eq_comm q a).mp hc)) (hq b hb)
      rw [intersectList_cons_of_gt h a A p hgt]
      simp only [runHeadsAux, hc, if_true]
      exact ih p a prev hA'.2 hp hgt (fun r hr => h.trans _ _ _ (hprev r hr) hqa)
    · have hlt : cmp q a < 0 := by omega
      simp only [runHeadsAux, hc, if_false]
      refine intersect_step h a A p prev hA'.2 hp
        (fun r hr => h.lt_of_le_of_lt (hprev r hr) hlt) ?_
      intro prev' hprev'
      refine ih _ a prev' hA'.2 (dropWhile_pairwise cmp _ _ (dropWhile_pairwise cmp _ _ hp))
        ?_ hprev'
      exact dropWhile_eq_gt h a _ (dropWhile_pairwise cmp _ _ hp) (dropWhile_lt_ge h a p hp)

/-- On sorted inputs `IntersectFunc` yields the run heads of the first input that have an
equal in the second. -/
theorem intersect_runHeads {cmp : T → T → Int} (h : Lawful cmp) (A B : List T)
    (hA : A.Pairwise (fun x y => cmp x y ≤ 0)) (hB : B.Pairwise (fun x y => cmp x y ≤ 0)) :
    uniqList cmp none (intersectList cmp A B) = (runHeads cmp A).filter (hasEqual cmp B) := by
  cases A with
  | nil => simp [intersectList, runHeads, uniqList]
  | cons a A =>
    simp only [runHeads]
    refine intersect_step h a A B none hA hB (fun q hq => by cases hq) ?_
    intro prev' hprev'
    refine intersect_aux h A _ a prev' hA
      (dropWhile_pairwise cmp _ _ (dropWhile_pairwise cmp _ _ hB)) ?_ hprev'
    exact dropWhile_eq_gt h a _ (dropWhile_pairwise cmp _ _ hB) (dropWhile_lt_ge h a B hB)

/-! ## `SubtractFunc` on sorted inputs -/

theorem Lawful.eq_congr {cmp : T → T → Int} (h : Lawful cmp) {a b : T} (hab : cmp a b = 0)
    (c : T) : cmp a c = 0 ↔ cmp b c = 0 := by
  have hba : cmp b a = 0 := (h.eq_comm a b).mp hab
  constructor
  · intro hac
    have h1 := h.trans b a c (le_of_eq hba) (le_of_eq hac)
    have h2 := h.trans c a b (le_of_eq ((h.eq_comm a c).mp hac)) (le_of_eq hab)
    have h3 := h.lt_iff b c
    omega
  · intro hbc
    have h1 := h.trans a b c (le_of_eq hab) (le_of_eq hbc)
    have h2 := h.trans c b a (le_of_eq ((h.eq_comm b c).mp hbc)) (le_of_eq hba)
    have h3 := h.lt_iff a c
    omega

theorem hasEqual_congr {cmp : T → T → Int} (h : Lawful cmp) (p : List T) {a b : T}
    (hab : cmp a b = 0) : hasEqual cmp p a = hasEqual cmp p b := by
  simp only [hasEqual]
  congr 1
  funext c
  exact decide_eq_decide.mpr (h.eq_congr hab c)

theorem headEquals_eq_hasEqual {cmp : T → T → Int} (h : Lawful cmp) (a : T) (p : List T)
    (hp : p.Pairwise (fun x y => cmp x y ≤ 0)) (hge : ∀ b ∈ p, cmp a b ≤ 0) :
    headEquals cmp a p = hasEqual cmp p a := by
  cases p with
  | nil => simp [headEquals, hasEqual]
  | cons c p =>
    by_cases hc : cmp c a = 0
    · have hc' : cmp a c = 0 := (h.eq_comm a c).mpr hc
      simp [headEquals, hasEqual, hc, hc']
    · have hac : cmp a c < 0 := by
        have h1 := hge c (List.mem_cons_self _ _)
        have h2 := h.eq_comm a c
        omega
      rw [hasEqual_eq_false_of_gt h]
      · simp [headEquals, hc]
      · intro b hb
        rcases List.mem_cons.mp hb with rfl | hb
        · exact hac
        · exact h.lt_of_lt_of_le hac ((List.pairwise_cons.mp hp).1 b hb)

theorem dropWhile_of_ge {cmp : T → T → Int} (h : Lawful cmp) (a : T) (p : List T)
    (hge : ∀ b ∈ p, cmp a b ≤ 0) : p.dropWhile (fun b => decide (cmp b a < 0)) = p := by
  cases p with
  | nil => simp
  | cons c p =>
    have h1 := hge c (List.mem_cons_self _ _)
    have h2 := h.lt_iff c a
    have h3 : ¬ cmp c a < 0 := by omega
    simp [List.dropWhile_cons, h3]

theorem uniqList_cons_of_ne (cmp : T → T → Int) (a : T) (l : List T) (prev : Option T)
    (hne : ∀ q, prev = some q → cmp a q ≠ 0) :
    uniqList cmp prev (a :: l) = a :: uniqList cmp (some a) l := by
  cases prev with
  | none => simp [uniqList]
  | some q => simp [uniqList, hne q rfl]

theorem subtract_step {cmp : T → T → Int} (h : Lawful cmp) (a : T) (A p : List T)
    (prev : Option T)
    (hA : (a :: A).Pairwise (fun x y => cmp x y ≤ 0))
    (hp : p.Pairwise (fun x y => cmp x y ≤ 0))
    (hprev : ∀ q, prev = some q → cmp q a < 0)
    (ih : ∀ prev' : Option T, (∀ q, prev' = some q → cmp q a ≤ 0) →
      (hasEqual cmp (p.dropWhile (fun b => decide (cmp b a < 0))) a = false →
        ∃ q, prev' = some q ∧ cmp a q = 0) →
      uniqList cmp prev' (subtractList cmp A (p.dropWhile (fun b => decide (cmp b a < 0))))
        = (runHeadsAux cmp a A).filter
            (fun x => !hasEqual cmp (p.dropWhile (fun b => decide (cmp b a < 0))) x)) :
    uniqList cmp prev (subtractList cmp (a :: A) p)
      = (a :: runHeadsAux cmp a A).filter (fun x => !hasEqual cmp p x) := by
  have hp1 := dropWhile_pairwise cmp (fun b => decide (cmp b a < 0)) p hp
  have hge := dropWhile_lt_ge h a p hp
  have hgt := runHeadsAux_gt h a A hA
  rw [List.pairwise_cons] at hgt
  have hrest : (runHeadsAux cmp a A).filter (fun x => !hasEqual cmp p x)
      = (runHeadsAux cmp a A).filter
          (fun x => !hasEqual cmp (p.dropWhile (fun b => decide (cmp b a < 0))) x) := by
    apply List.filter_congr
    intro x hx
    rw [hasEqual_dropWhile_lt h _ a x (le_of_lt (hgt.1 x hx))]
  have hhead : hasEqual cmp p a
      = headEquals cmp a (p.dropWhile (fun b => decide (cmp b a < 0))) := by
    rw [← hasEqual_dropWhile_lt h p a a (le_of_eq (h.refl a))]
    exact (headEquals_eq_hasEqual h a _ hp1 hge).symm
  have hne : ∀ q, prev = some q → cmp a q ≠ 0 := by
    intro q hq
    have h1 := hprev q hq
    have h2 := h.eq_comm a q
    omega
  simp only [subtractList]
  rw [List.filter_cons, hhead, hrest]
  by_cases hh : headEquals cmp a (p.dropWhile (fun b => decide (cmp b a < 0))) = true
  · simp only [hh, if_true, Bool.not_true, Bool.false_eq_true, if_false]
    refine ih prev (fun q hq => le_of_lt (hprev q hq)) ?_
    intro hf
    rw [← headEquals_eq_hasEqual h a _ hp1 hge, hh] at hf
    cases hf
  · have hh' : headEquals cmp a (p.dropWhile (fun b => decide (cmp b a < 0))) = false := by
      simpa using hh
    simp only [hh', Bool.false_eq_true, if_false, Bool.not_false, if_true]
    rw [uniqList_cons_of_ne cmp a _ prev hne]
    rw [ih (some a) (fun q hq => by cases hq; exact le_of_eq (h.refl _))
      (fun _ => ⟨a, rfl, h.refl a⟩)]

theorem subtract_aux {cmp : T → T → Int} (h : Lawful cmp) (A p : List T) (q : T)
    (prev : Option T)
    (hA : (q :: A).Pairwise (fun x y => cmp x y ≤ 0))
    (hp : p.Pairwise (fun x y => cmp x y ≤ 0))
    (hq : ∀ b ∈ p, cmp q b ≤ 0)
    (hprev : ∀ r, prev = some r → cmp r q ≤ 0)
    (hemit : hasEqual cmp p q = false → ∃ r, prev = some r ∧ cmp q r = 0) :
    uniqList cmp prev (subtractList cmp A p)
      = (runHeadsAux cmp q A).filter (fun x => !hasEqual cmp p x) := by
  induction A generalizing p q prev with
  | nil => cases prev <;> simp [subtractList, runHeadsAux, uniqList]
  | cons a A ih =>
    have hA' := hA
    rw [List.pairwise_cons] at hA'
    have hqa := hA'.1 a (List.mem_cons_self _ _)
    by_cases hc : cmp q a = 0
    · have haq : cmp a q = 0 := (h.eq_comm q a).mp hc
      have hge : ∀ b ∈ p, cmp a b ≤ 0 := fun b hb => h.trans _ _ _ (le_of_eq haq) (hq b hb)
      have hprev' : ∀ r, prev = some r → cmp r a ≤ 0 :=
        fun r hr => h.trans _ _ _ (hprev r hr) hqa
      simp only [runHeadsAux, hc, if_true, subtractList, dropWhile_of_ge h a p hge]
      by_cases hh : headEquals cmp a p = true
      · simp only [hh, if_true]
        refine ih p a prev hA'.2 hp hge hprev' ?_
        intro hf
        rw [← headEquals_eq_hasEqual h a p hp hge, hh] at hf
        cases hf
      · simp only [hh, if_false]
        have hf : hasEqual cmp p q = false := by
          rw [hasEqual_congr h p hc, ← headEquals_eq_hasEqual h a p hp hge]
          simpa using hh
        obtain ⟨r, hr, hqr⟩ := hemit hf
        have har : cmp a r = 0 := (h.eq_congr hc r).mp hqr
        subst hr
        simp only [uniqList, har, if_true]
        exact ih p a (some r) hA'.2 hp hge hprev' (fun _ => ⟨r, rfl, har⟩)
    · have hlt : cmp q a < 0 := by omega
      simp only [runHeadsAux, hc, if_false]
      refine subtract_step h a A p prev hA'.2 hp
        (fun r hr => h.lt_of_le_of_lt (hprev r hr) hlt) ?_
      intro prev' hprev' hemit'
      exact ih _ a prev' hA'.2 (dropWhile_pairwise cmp _ _ hp) (dropWhile_lt_ge h a p hp)
        hprev' hemit'

/-- On sorted inputs `SubtractFunc` yields the run heads of the first input that have no
equal in the second. -/
theorem subtract_runHeads {cmp : T → T → Int} (h : Lawful cmp) (A B : List T)
    (hA : A.Pairwise (fun x y => cmp x y ≤ 0)) (hB : B.Pairwise (fun x y => cmp x y ≤ 0)) :
    uniqList cmp none (subtractList cmp A B)
      = (runHeads cmp A).filter (fun x => !hasEqual cmp B x) := by
  cases A with
  | nil => simp [subtractList, runHeads, uniqList]
  | cons a A =>
    simp only [runHeads]
    refine subtract_step h a A B none hA hB (fun q hq => by cases hq) ?_
    intro prev' hprev' hemit'
    exact subtract_aux h A _ a prev' hA (dropWhile_pairwise cmp _ _ hB)
      (dropWhile_lt_ge h a B hB) hprev' hemit'

/-! ## Natural order on integers -/

theorem pairwise_Compare_iff [LinearOrder T] (l : List T) :
    l.Pairwise (fun x y => Compare x y ≤ 0) ↔ l.Sorted (· ≤ ·) := by
  simp only [List.Sorted, Compare_le_iff]

theorem pairwise_Compare_lt_iff [LinearOrder T] (l : List T) :
    l.Pairwise (fun x y => Compare x y < 0) ↔ l.Sorted (· < ·) := by
  simp only [List.Sorted, Compare_lt_iff]

theorem mergeList_Compare_sorted [LinearOrder T] (A B : List T) (hA : A.Sorted (· ≤ ·))
    (hB : B.Sorted (· ≤ ·)) : (mergeList Compare A B).Sorted (· ≤ ·) := by
  rw [← pairwise_Compare_iff] at *
  exact mergeList_pairwise Compare_lawful A B hA hB

theorem mergeList_eq_simpleMerge (A B : List Int) (hA : A.Sorted (· ≤ ·))
    (hB : B.Sorted (· ≤ ·)) : mergeList Compare A B = simpleMerge A B := by
  refine List.eq_of_perm_of_sorted ?_ (mergeList_Compare_sorted A B hA hB)
    (List.sorted_insertionSort _ _)
  exact (mergeList_perm Compare A B).trans (List.perm_insertionSort _ _).symm

theorem uniqList_some_Compare [LinearOrder T] (p : T) (l : List T) :
    uniqList Compare (some p) l = compactFrom p l := by
  induction l generalizing p with
  | nil => simp [uniqList, compactFrom]
  | cons x xs ih =>
    by_cases hx : x = p
    · simp [uniqList, compactFrom, hx, Compare_eq_iff, ih]
    · simp [uniqList, compactFrom, hx, Compare_eq_iff, ih]

theorem uniqList_none_Compare [LinearOrder T] (l : List T) :
    uniqList Compare none l = Compact l := by
  cases l with
  | nil => simp [uniqList, Compact]
  | cons x xs => simp [uniqList, Compact, uniqList_some_Compare]

theorem mem_compactFrom [DecidableEq T] (p : T) (l : List T) (v : T) :
    v ∈ p :: compactFrom p l ↔ v ∈ p :: l := by
  induction l generalizing p with
  | nil => simp [compactFrom]
  | cons x xs ih =>
    by_cases hx : x = p
    · subst hx
      simp only [compactFrom, if_true]
      rw [ih]
      simp
    · simp only [compactFrom, hx, if_false]
      rw [List.mem_cons, ih, List.mem_cons, List.mem_cons, List.mem_cons]

theorem mem_Compact [DecidableEq T] (l : List T) (v : T) : v ∈ Compact l ↔ v ∈ l := by
  cases l with
  | nil => simp [Compact]
  | cons x xs => simpa [Compact] using mem_compactFrom x xs v

theorem mem_runHeadsAux_Compare [LinearOrder T] (p : T) (l : List T) (v : T) :
    v ∈ p :: runHeadsAux Compare p l ↔ v ∈ p :: l := by
  induction l generalizing p with
  | nil => simp [runHeadsAux]
  | cons x xs ih =>
    by_cases hx : p = x
    · subst hx
      simp only [runHeadsAux, (Compare_eq_iff p p).mpr rfl, if_true]
      rw [ih]
      simp
    · simp only [runHeadsAux, Compare_eq_iff, hx, if_false]
      rw [List.mem_cons, ih, List.mem_cons, List.mem_cons, List.mem_cons]

theorem mem_runHeads_Compare [LinearOrder T] (l : List T) (v : T) :
    v ∈ runHeads Compare l ↔ v ∈ l := by
  cases l with
  | nil => simp [runHeads]
  | cons x xs => simpa [runHeads] using mem_runHeadsAux_Compare x xs v

theorem hasEqual_Compare [LinearOrder T] (l : List T) (v : T) :
    hasEqual Compare l v = true ↔ v ∈ l := by
  simp [hasEqual, Compare_eq_iff]

/-- A strictly increasing list is the sorted form of any duplicate-free list with the same
members. -/
theorem eq_insertionSort_of_strict (out l : List Int) (hs : out.Sorted (· < ·))
    (hl : l.Nodup) (hm : ∀ v, v ∈ out ↔ v ∈ l) : out = l.insertionSort (· ≤ ·) := by
  refine List.eq_of_perm_of_sorted ?_ hs.le_of_lt (List.sorted_insertionSort _ _)
  exact ((List.perm_ext_iff_of_nodup hs.nodup hl).mpr hm).trans
    (List.perm_insertionSort _ _).symm

/-! ## Provenance of the merged values -/

theorem onValue_lawful {cmp : T → T → Int} (h : Lawful cmp) : Lawful (onValue cmp) :=
  ⟨fun a b => h.antisymm a.1 b.1, fun a b c => h.trans a.1 b.1 c.1⟩

theorem mergeList_map {α : Type} (cmp : T → T → Int) (f : α → T) (s1 p : List α) :
    (mergeList (fun x y => cmp (f x) (f y)) s1 p).map f
      = mergeList cmp (s1.map f) (p.map f) := by
  induction s1 generalizing p with
  | nil => simp [mergeList]
  | cons e1 s1 ih =>
    simp only [mergeList, List.map_append, List.map_cons, ih, List.takeWhile_map,
      List.dropWhile_map]
    rfl

theorem map_fst_tag (b : Bool) (l : List T) : (tag b l).map Prod.fst = l := by
  simp [tag, Function.comp_def]

theorem mergeList_tag (cmp : T → T → Int) (A B : List T) :
    (mergeList (onValue cmp) (tag false A) (tag true B)).map Prod.fst = mergeList cmp A B := by
  have := mergeList_map cmp (Prod.fst : T × Bool → T) (tag false A) (tag true B)
  rw [map_fst_tag, map_fst_tag] at this
  exact this

/-- In the merge of marked inputs, a value of the second input that comes before a value of
the first input is strictly smaller. -/
theorem mergeList_tiebreak {cmp : T → T → Int} (h : Lawful cmp) (s1 p : List (T × Bool))
    (h1 : s1.Pairwise (fun x y => cmp x.1 y.1 ≤ 0))
    (ht1 : ∀ x ∈ s1, x.2 = false) (htp : ∀ x ∈ p, x.2 = true) :
    (mergeList (onValue cmp) s1 p).Pairwise
      (fun x y => x.2 = true → y.2 = false → cmp x.1 y.1 < 0) := by
  induction s1 generalizing p with
  | nil =>
    simp only [mergeList]
    refine List.pairwise_of_forall_mem_list ?_
    intro x _ y hy _ hy2
    rw [htp y hy] at hy2
    cases hy2
  | cons e1 s1 ih =>
    rw [List.pairwise_cons] at h1
    have he1 : e1.2 = false := ht1 e1 (List.mem_cons_self _ _)
    have ht1' : ∀ x ∈ s1, x.2 = false := fun x hx => ht1 x (List.mem_cons_of_mem _ hx)
    simp only [mergeList]
    rw [List.pairwise_append]
    refine ⟨?_, ?_, ?_⟩
    · refine List.pairwise_of_forall_mem_list ?_
      intro x _ y hy _ hy2
      rw [htp y (List.takeWhile_subset _ hy)] at hy2
      cases hy2
    · rw [List.pairwise_cons]
      refine ⟨?_, ih _ h1.2 ht1' (fun x hx => htp x (List.dropWhile_subset _ hx))⟩
      intro b _ hb
      rw [he1] at hb
      cases hb
    · intro a ha b hb _ hb2
      have hae : cmp a.1 e1.1 < 0 := by simpa [onValue] using List.mem_takeWhile_imp ha
      rw [List.mem_cons, mem_mergeList] at hb
      rcases hb with rfl | hb | hb
      · exact hae
      · exact h.lt_of_lt_of_le hae (h1.1 b hb)
      · rw [htp b (List.dropWhile_subset _ hb)] at hb2
        cases hb2

theorem tag_pairwise (cmp : T → T → Int) (b : Bool) (l : List T)
    (hl : l.Pairwise (fun x y => cmp x y ≤ 0)) :
    (tag b l).Pairwise (fun x y => cmp x.1 y.1 ≤ 0) := by
  simp only [tag, List.pairwise_map]
  exact hl

theorem mem_tag (b : Bool) (l : List T) (x : T × Bool) (hx : x ∈ tag b l) : x.2 = b := by
  simp only [tag, List.mem_map] at hx
  obtain ⟨a, _, rfl⟩ := hx
  rfl

/-! ## Claims -/

/-- C1: for all finite non-decreasing lists of integers `A` and `B` (natural order),
collecting `Merge(A, B)` yields exactly the list obtained by concatenating `A` and `B` and
sorting it in ascending order (`simpleMerge` of the test file). -/
theorem merge_eq_sorted_concat (A B : List Int) (hA : A.Sorted (· ≤ ·))
    (hB : B.Sorted (· ≤ ·)) : Collect (Merge A B) = simpleMerge A B := by
  unfold Merge
  rw [collect_MergeFunc]
  exact mergeList_eq_simpleMerge A B hA hB

theorem merge_eq_sorted_concat_witness :
    ([0, 1, 1] : List Int).Sorted (· ≤ ·) ∧ ([1] : List Int).Sorted (· ≤ ·) ∧
      Collect (Merge [0, 1, 1] [1]) = simpleMerge [0, 1, 1] [1] :=
  ⟨by decide, by decide, merge_eq_sorted_concat [0, 1, 1] [1] (by decide) (by decide)⟩

/-- C2: for all finite non-decreasing lists of integers `A` and `B` (natural order),
`Union(A, B)` is strictly increasing, its values are exactly the values of `A` together with
the values of `B`, and it equals `slices.Compact` of the sorted concatenation of `A` and `B`
(`simpleUnion` of the test file). -/
theorem union_eq_compact_sorted_concat (A B : List Int) (hA : A.Sorted (· ≤ ·))
    (hB : B.Sorted (· ≤ ·)) :
    (Collect (Union A B)).Sorted (· < ·) ∧
      (∀ v, v ∈ Collect (Union A B) ↔ v ∈ A ∨ v ∈ B) ∧
      Collect (Union A B) = simpleUnion A B := by
  unfold Union
  rw [collect_UnionFunc]
  refine ⟨?_, ?_, ?_⟩
  · rw [← pairwise_Compare_lt_iff]
    refine uniqList_none_strict Compare_lawful _ ?_
    rw [pairwise_Compare_iff]
    exact mergeList_Compare_sorted A B hA hB
  · intro v
    rw [uniqList_none_Compare, mem_Compact, mem_mergeList]
  · rw [uniqList_none_Compare, mergeList_eq_simpleMerge A B hA hB, simpleUnion]

theorem union_eq_compact_sorted_concat_witness :
    ([0, 1, 1] : List Int).Sorted (· ≤ ·) ∧ ([1, 2] : List Int).Sorted (· ≤ ·) ∧
      ((Collect (Union ([0, 1, 1] : List Int) [1, 2])).Sorted (· < ·) ∧
        (∀ v : Int, v ∈ Collect (Union [0, 1, 1] [1, 2]) ↔ v ∈ [0, 1, 1] ∨ v ∈ [1, 2]) ∧
        Collect (Union [0, 1, 1] [1, 2]) = simpleUnion [0, 1, 1] [1, 2]) :=
  ⟨by decide, by decide,
    union_eq_compact_sorted_concat [0, 1, 1] [1, 2] (by decide) (by decide)⟩

/-- C3: for all finite non-decreasing lists of integers `A` and `B` (natural order),
`Intersect(A, B)` equals the ascending list, without repeats, of exactly the values that
occur in both `A` and `B` (`simpleIntersect` of the test file); it is strictly increasing
and its members are the common members of `A` and `B`. -/
theorem intersect_eq_common_values (A B : List Int) (hA : A.Sorted (· ≤ ·))
    (hB : B.Sorted (· ≤ ·)) :
    Collect (Intersect A B) = simpleIntersect A B ∧
      (Collect (Intersect A B)).Sorted (· < ·) ∧
      (∀ v, v ∈ Collect (Intersect A B) ↔ v ∈ A ∧ v ∈ B) := by
  unfold Intersect
  rw [collect_IntersectFunc, intersect_runHeads Compare_lawful A B
    ((pairwise_Compare_iff A).mpr hA) ((pairwise_Compare_iff B).mpr hB)]
  have hs : ((runHeads Compare A).filter (hasEqual Compare B)).Sorted (· < ·) := by
    rw [← pairwise_Compare_lt_iff]
    exact (runHeads_strict Compare_lawful A ((pairwise_Compare_iff A).mpr hA)).sublist
      (List.filter_sublist _)
  have hm : ∀ v, v ∈ (runHeads Compare A).filter (hasEqual Compare B) ↔ v ∈ A ∧ v ∈ B := by
    intro v
    rw [List.mem_filter, mem_runHeads_Compare, hasEqual_Compare]
  refine ⟨?_, hs, hm⟩
  refine eq_insertionSort_of_strict _ _ hs ((List.nodup_dedup A).filter _) ?_
  intro v
  rw [hm, List.mem_filter, List.mem_dedup, decide_eq_true_eq]

theorem intersect_eq_common_values_witness :
    ([0, 1, 1, 3] : List Int).Sorted (· ≤ ·) ∧ ([1, 2, 3, 3] : List Int).Sorted (· ≤ ·) ∧
      (Collect (Intersect [0, 1, 1, 3] [1, 2, 3, 3]) = simpleIntersect [0, 1, 1, 3] [1, 2, 3, 3] ∧
        (Collect (Intersect ([0, 1, 1, 3] : List Int) [1, 2, 3, 3])).Sorted (· < ·) ∧
        (∀ v : Int, v ∈ Collect (Intersect [0, 1, 1, 3] [1, 2, 3, 3]) ↔
          v ∈ [0, 1, 1, 3] ∧ v ∈ [1, 2, 3, 3])) :=
  ⟨by decide, by decide,
    intersect_eq_common_values [0, 1, 1, 3] [1, 2, 3, 3] (by decide) (by decide)⟩

/-- C4: for all finite non-decreasing lists of integers `A` and `B` (natural order),
`Subtract(A, B)` equals the ascending list, without repeats, of exactly the values that
occur in `A` and do not occur in `B` (`simpleSubtract` of the test file); it is strictly
increasing and its members are the members of `A` that are not members of `B`. -/
theorem subtract_eq_difference_values (A B : List Int) (hA : A.Sorted (· ≤ ·))
    (hB : B.Sorted (· ≤ ·)) :
    Collect (Subtract A B) = simpleSubtract A B ∧
      (Collect (Subtract A B)).Sorted (· < ·) ∧
      (∀ v, v ∈ Collect (Subtract A B) ↔ v ∈ A ∧ v ∉ B) := by
  unfold Subtract
  rw [collect_SubtractFunc, subtract_runHeads Compare_lawful A B
    ((pairwise_Compare_iff A).mpr hA) ((pairwise_Compare_iff B).mpr hB)]
  have hs : ((runHeads Compare A).filter (fun x => !hasEqual Compare B x)).Sorted (· < ·) := by
    rw [← pairwise_Compare_lt_iff]
    exact (runHeads_strict Compare_lawful A ((pairwise_Compare_iff A).mpr hA)).sublist
      (List.filter_sublist _)
  have hm : ∀ v, v ∈ (runHeads Compare A).filter (fun x => !hasEqual Compare B x) ↔
      v ∈ A ∧ v ∉ B := by
    intro v
    rw [List.mem_filter, mem_runHeads_Compare, Bool.not_eq_true', ← hasEqual_Compare B v,
      Bool.not_eq_true]
  refine ⟨?_, hs, hm⟩
  refine eq_insertionSort_of_strict _ _ hs ((List.nodup_dedup A).filter _) ?_
  intro v
  rw [hm, List.mem_filter, List.mem_dedup, decide_eq_true_eq]

theorem subtract_eq_difference_values_witness :
    ([0, 1, 1, 3] : List Int).Sorted (· ≤ ·) ∧ ([1, 2] : List Int).Sorted (· ≤ ·) ∧
      (Collect (Subtract [0, 1, 1, 3] [1, 2]) = simpleSubtract [0, 1, 1, 3] [1, 2] ∧
        (Collect (Subtract ([0, 1, 1, 3] : List Int) [1, 2])).Sorted (· < ·) ∧
        (∀ v : Int, v ∈ Collect (Subtract [0, 1, 1, 3] [1, 2]) ↔
          v ∈ [0, 1, 1, 3] ∧ v ∉ [1, 2])) :=
  ⟨by decide, by decide,
    subtract_eq_difference_values [0, 1, 1, 3] [1, 2] (by decide) (by decide)⟩

/-- C5: for all finite non-decreasing sequences `A` and `B` and every value `v`, the number
of occurrences of `v` in `Merge(A, B)` equals the number of occurrences of `v` in `A` plus
the number of occurrences of `v` in `B`. -/
theorem merge_count [LinearOrder T] (A B : List T) (hA : A.Sorted (· ≤ ·))
    (hB : B.Sorted (· ≤ ·)) (v : T) :
    (Collect (Merge A B)).count v = A.count v + B.count v := by
  have _ := hA
  have _ := hB
  unfold Merge
  rw [collect_MergeFunc, (mergeList_perm Compare A B).count_eq, List.count_append]

theorem merge_count_witness :
    ([0, 1, 1] : List Int).Sorted (· ≤ ·) ∧ ([1, 1, 2] : List Int).Sorted (· ≤ ·) ∧
      (Collect (Merge [0, 1, 1] [1, 1, 2])).count (1 : Int)
        = ([0, 1, 1] : List Int).count 1 + ([1, 1, 2] : List Int).count 1 :=
  ⟨by decide, by decide, merge_count [0, 1, 1] [1, 1, 2] (by decide) (by decide) 1⟩

/-- C6: for every lawful comparator `cmp` (sign-antisymmetric and transitive) and all finite
lists `A`, `B` that are non-decreasing under `cmp`, the output of `MergeFunc(A, B, cmp)` is
non-decreasing under `cmp`: every adjacent pair `x, y` of it satisfies `cmp(x, y) <= 0`. -/
theorem mergeFunc_nonDecreasing (cmp : T → T → Int) (h : Lawful cmp) (A B : List T)
    (hA : NonDecreasing cmp A) (hB : NonDecreasing cmp B) :
    NonDecreasing cmp (Collect (MergeFunc A B cmp)) := by
  rw [collect_MergeFunc, h.chain_iff_pairwise]
  exact mergeList_pairwise h A B ((h.chain_iff_pairwise A).mp hA)
    ((h.chain_iff_pairwise B).mp hB)

theorem mergeFunc_nonDecreasing_witness :
    Lawful (onValue (Compare : Int → Int → Int)) ∧
      NonDecreasing (onValue (Compare : Int → Int → Int)) [(0, true), (1, false), (1, true)] ∧
      NonDecreasing (onValue (Compare : Int → Int → Int)) [(1, true), (1, false), (2, true)] ∧
      NonDecreasing (onValue (Compare : Int → Int → Int))
        (Collect (MergeFunc [(0, true), (1, false), (1, true)]
          [(1, true), (1, false), (2, true)] (onValue Compare))) :=
  ⟨onValue_lawful Compare_lawful, by simp [onValue, Compare], by simp [onValue, Compare],
    mergeFunc_nonDecreasing (onValue Compare) (onValue_lawful Compare_lawful)
      [(0, true), (1, false), (1, true)] [(1, true), (1, false), (2, true)]
      (by simp [onValue, Compare]) (by simp [onValue, Compare])⟩

/-- C7: Merge tie-break.  For every lawful comparator `cmp` and all finite `cmp`-sorted lists
`A` and `B`, run `MergeFunc` on the inputs with every element marked by its origin (`false`
for `A`, `true` for `B`; the comparator ignores the mark).  Erasing the marks gives the
output of `MergeFunc(A, B, cmp)`, and whenever position `i` of the output holds an element
`a` taken from `A` and position `j` holds an element `b` taken from `B` with
`cmp(a, b) = 0`, then `i < j`: no `B` element is output ahead of an equal `A` element. -/
theorem mergeFunc_tiebreak (cmp : T → T → Int) (h : Lawful cmp) (A B : List T)
    (hA : NonDecreasing cmp A) (hB : NonDecreasing cmp B) :
    (Collect (MergeFunc (tag false A) (tag true B) (onValue cmp))).map Prod.fst
        = Collect (MergeFunc A B cmp) ∧
      ∀ (i j : Nat) (a b : T),
        (Collect (MergeFunc (tag false A) (tag true B) (onValue cmp)))[i]? = some (a, false) →
        (Collect (MergeFunc (tag false A) (tag true B) (onValue cmp)))[j]? = some (b, true) →
        cmp a b = 0 → i < j := by
  have _ := hB
  rw [collect_MergeFunc, collect_MergeFunc]
  refine ⟨mergeList_tag cmp A B, ?_⟩
  intro i j a b hi hj hab
  have hpw := mergeList_tiebreak h (tag false A) (tag true B)
    (tag_pairwise cmp false A ((h.chain_iff_pairwise A).mp hA))
    (mem_tag false A) (mem_tag true B)
  rw [List.pairwise_iff_getElem] at hpw
  obtain ⟨hi', hie⟩ := List.getElem?_eq_some.mp hi
  obtain ⟨hj', hje⟩ := List.getElem?_eq_some.mp hj
  by_contra hij
  have hne : i ≠ j := by
    rintro rfl
    rw [hie] at hje
    cases hje
  have hlt : j < i := by omega
  have := hpw j i hj' hi' hlt
  rw [hie, hje] at this
  have h1 := this rfl rfl
  have h2 := (h.eq_comm a b).mp hab
  simp only at h1
  omega

theorem mergeFunc_tiebreak_witness :
    NonDecreasing (Compare : Int → Int → Int) [0, 1, 1] ∧
      NonDecreasing (Compare : Int → Int → Int) [1] ∧
      Collect (MergeFunc (tag false [0, 1, 1]) (tag true [1]) (onValue Compare))
        = [((0 : Int), false), (1, false), (1, false), (1, true)] ∧
      ((Collect (MergeFunc (tag false [0, 1, 1]) (tag true [1])
          (onValue (Compare : Int → Int → Int)))).map Prod.fst
          = Collect (MergeFunc [0, 1, 1] [1] Compare) ∧
        ∀ (i j : Nat) (a b : Int),
          (Collect (MergeFunc (tag false [0, 1, 1]) (tag true [1]) (onValue Compare)))[i]?
            = some (a, false) →
          (Collect (MergeFunc (tag false [0, 1, 1]) (tag true [1]) (onValue Compare)))[j]?
            = some (b, true) →
          Compare a b = 0 → i < j) :=
  ⟨by simp [Compare], by simp, by decide,
    mergeFunc_tiebreak Compare Compare_lawful [0, 1, 1] [1] (by simp [Compare]) (by simp)⟩

/-- C8: for every lawful comparator `cmp` and all finite lists `A`, `B` that are
non-decreasing under `cmp`, the outputs of `UnionFunc(A, B, cmp)`, `IntersectFunc(A, B, cmp)`
and `SubtractFunc(A, B, cmp)` are each strictly increasing under `cmp`: every adjacent pair
`x, y` of the output satisfies `cmp(x, y) < 0`. -/
theorem setOps_strictlyIncreasing (cmp : T → T → Int) (h : Lawful cmp) (A B : List T)
    (hA : NonDecreasing cmp A) (hB : NonDecreasing cmp B) :
    StrictlyIncreasing cmp (Collect (UnionFunc A B cmp)) ∧
      StrictlyIncreasing cmp (Collect (IntersectFunc A B cmp)) ∧
      StrictlyIncreasing cmp (Collect (SubtractFunc A B cmp)) := by
  have hA' := (h.chain_iff_pairwise A).mp hA
  have hB' := (h.chain_iff_pairwise B).mp hB
  rw [collect_UnionFunc, collect_IntersectFunc, collect_SubtractFunc,
    intersect_runHeads h A B hA' hB', subtract_runHeads h A B hA' hB',
    h.strict_iff_pairwise, h.strict_iff_pairwise, h.strict_iff_pairwise]
  exact ⟨uniqList_none_strict h _ (mergeList_pairwise h A B hA' hB'),
    (runHeads_strict h A hA').sublist (List.filter_sublist _),
    (runHeads_strict h A hA').sublist (List.filter_sublist _)⟩

theorem setOps_strictlyIncreasing_witness :
    Lawful (onValue (Compare : Int → Int → Int)) ∧
      NonDecreasing (onValue (Compare : Int → Int → Int)) [(0, true), (1, false), (1, true)] ∧
      NonDecreasing (onValue (Compare : Int → Int → Int)) [(1, true), (1, false), (2, true)] ∧
      (StrictlyIncreasing (onValue (Compare : Int → Int → Int))
          (Collect (UnionFunc [(0, true), (1, false), (1, true)]
            [(1, true), (1, false), (2, true)] (onValue Compare))) ∧
        StrictlyIncreasing (onValue (Compare : Int → Int → Int))
          (Collect (IntersectFunc [(0, true), (1, false), (1, true)]
            [(1, true), (1, false), (2, true)] (onValue Compare))) ∧
        StrictlyIncreasing (onValue (Compare : Int → Int → Int))
          (Collect (SubtractFunc [(0, true), (1, false), (1, true)]
            [(1, true), (1, false), (2, true)] (onValue Compare)))) :=
  ⟨onValue_lawful Compare_lawful, by simp [onValue, Compare], by simp [onValue, Compare],
    setOps_strictlyIncreasing (onValue Compare) (onValue_lawful Compare_lawful)
      [(0, true), (1, false), (1, true)] [(1, true), (1, false), (2, true)]
      (by simp [onValue, Compare]) (by simp [onValue, Compare])⟩

/-- C9: for every lawful comparator `cmp` and all finite `cmp`-sorted lists `A` and `B`, the
output of `IntersectFunc(A, B, cmp)` is a sublist of `A` (elements of `s1` only, in the order
of `s1`), namely exactly the first element of each maximal run of `cmp`-equal elements of `A`
for which `B` contains some `cmp`-equal element. -/
theorem intersectFunc_eq_matched_run_heads (cmp : T → T → Int) (h : Lawful cmp)
    (A B : List T) (hA : NonDecreasing cmp A) (hB : NonDecreasing cmp B) :
    Collect (IntersectFunc A B cmp) = (runHeads cmp A).filter (hasEqual cmp B) ∧
      (Collect (IntersectFunc A B cmp)).Sublist A := by
  have hA' := (h.chain_iff_pairwise A).mp hA
  have hB' := (h.chain_iff_pairwise B).mp hB
  rw [collect_IntersectFunc, intersect_runHeads h A B hA' hB']
  refine ⟨rfl, (List.filter_sublist _).trans ?_⟩
  cases A with
  | nil => simp [runHeads]
  | cons a A => simpa [runHeads] using runHeadsAux_sublist cmp a A

theorem intersectFunc_eq_matched_run_heads_witness :
    Lawful (onValue (Compare : Int → Int → Int)) ∧
      NonDecreasing (onValue (Compare : Int → Int → Int))
        [(0, true), (1, false), (1, true), (3, false), (3, true)] ∧
      NonDecreasing (onValue (Compare : Int → Int → Int)) [(1, true), (2, true), (3, true)] ∧
      Collect (IntersectFunc [(0, true), (1, false), (1, true), (3, false), (3, true)]
          [(1, true), (2, true), (3, true)] (onValue Compare))
        = [((1 : Int), false), (3, false)] ∧
      (Collect (IntersectFunc [(0, true), (1, false), (1, true), (3, false), (3, true)]
            [(1, true), (2, true), (3, true)] (onValue (Compare : Int → Int → Int)))
          = (runHeads (onValue Compare)
              [(0, true), (1, false), (1, true), (3, false), (3, true)]).filter
            (hasEqual (onValue Compare) [(1, true), (2, true), (3, true)]) ∧
        (Collect (IntersectFunc [(0, true), (1, false), (1, true), (3, false), (3, true)]
            [(1, true), (2, true), (3, true)] (onValue (Compare : Int → Int → Int)))).Sublist
          [(0, true), (1, false), (1, true), (3, false), (3, true)]) :=
  ⟨onValue_lawful Compare_lawful, by simp [onValue, Compare], by simp [onValue, Compare],
    by decide,
    intersectFunc_eq_matched_run_heads (onValue Compare) (onValue_lawful Compare_lawful)
      [(0, true), (1, false), (1, true), (3, false), (3, true)]
      [(1, true), (2, true), (3, true)] (by simp [onValue, Compare]) (by simp [onValue, Compare])⟩

/-- C10: for every lawful comparator `cmp` and all finite `cmp`-sorted lists `A` and `B`, the
output of `SubtractFunc(A, B, cmp)` is a sublist of `A` (elements of `s1` only, in the order
of `s1`), namely exactly the first element of each maximal run of `cmp`-equal elements of `A`
for which `B` contains no `cmp`-equal element; every element of a run that is matched in `B`
is skipped. -/
theorem subtractFunc_eq_unmatched_run_heads (cmp : T → T → Int) (h : Lawful cmp)
    (A B : List T) (hA : NonDecreasing cmp A) (hB : NonDecreasing cmp B) :
    Collect (SubtractFunc A B cmp)
        = (runHeads cmp A).filter (fun a => !hasEqual cmp B a) ∧
      (Collect (SubtractFunc A B cmp)).Sublist A := by
  have hA' := (h.chain_iff_pairwise A).mp hA
  have hB' := (h.chain_iff_pairwise B).mp hB
  rw [collect_SubtractFunc, subtract_runHeads h A B hA' hB']
  refine ⟨rfl, (List.filter_sublist _).trans ?_⟩
  cases A with
  | nil => simp [runHeads]
  | cons a A => simpa [runHeads] using runHeadsAux_sublist cmp a A

theorem subtractFunc_eq_unmatched_run_heads_witness :
    Lawful (onValue (Compare : Int → Int → Int)) ∧
      NonDecreasing (onValue (Compare : Int → Int → Int))
        [(0, true), (0, false), (1, false), (1, true), (1, true), (3, false)] ∧
      NonDecreasing (onValue (Compare : Int → Int → Int)) [(1, true), (2, true)] ∧
      Collect (SubtractFunc [(0, true), (0, false), (1, false), (1, true), (1, true), (3, false)]
          [(1, true), (2, true)] (onValue Compare))
        = [((0 : Int), true), (3, false)] ∧
      (Collect (SubtractFunc
            [(0, true), (0, false), (1, false), (1, true), (1, true), (3, false)]
            [(1, true), (2, true)] (onValue (Compare : Int → Int → Int)))
          = (runHeads (onValue Compare)
              [(0, true), (0, false), (1, false), (1, true), (1, true), (3, false)]).filter
            (fun a => !hasEqual (onValue Compare) [(1, true), (2, true)] a) ∧
        (Collect (SubtractFunc
            [(0, true), (0, false), (1, false), (1, true), (1, true), (3, false)]
            [(1, true), (2, true)] (onValue (Compare : Int → Int → Int)))).Sublist
          [(0, true), (0, false), (1, false), (1, true), (1, true), (3, false)]) :=
  ⟨onValue_lawful Compare_lawful, by simp [onValue, Compare], by simp [onValue, Compare],
    by decide,
    subtractFunc_eq_unmatched_run_heads (onValue Compare) (onValue_lawful Compare_lawful)
      [(0, true), (0, false), (1, false), (1, true), (1, true), (3, false)]
      [(1, true), (2, true)] (by simp [onValue, Compare]) (by simp [onValue, Compare])⟩

/-! ## Early termination -/

theorem feed_limitedCollector (n : Nat) (xs acc : List T) (h : acc.length < n) :
    (feed (limitedCollector n) xs acc).2 = acc ++ xs.take (n - acc.length) := by
  induction xs generalizing acc with
  | nil => simp [feed]
  | cons x xs ih =>
    by_cases hn : acc.length + 1 < n
    · have h1 : n - acc.length = (n - (acc.length + 1)) + 1 := by omega
      simp only [feed, limitedCollector, hn, decide_True, Bool.not_true, Bool.false_eq_true,
        if_false]
      rw [ih (acc ++ [x]) (by simpa using hn), h1, List.take_succ_cons]
      simp
    · have h1 : n - acc.length = 1 := by omega
      simp [feed, limitedCollector, hn, h1]

theorem feed_limitedCollector_nil (n : Nat) (xs : List T) (h : 1 ≤ n) :
    (feed (limitedCollector n) xs []).2 = xs.take n := by
  have := feed_limitedCollector n xs [] (by simpa using h)
  simpa using this

/-- C11: early termination.  For each of `MergeFunc`, `UnionFunc`, `IntersectFunc` and
`SubtractFunc`, all finite lists `A`, `B`, any comparator and every `n >= 1`: a consumer that
records every call, accepts its first `n - 1` values and declines the `n`-th has been handed
exactly the first `n` values of the full output (the whole output if it is shorter); so it
is not called again after it has declined. -/
theorem early_termination (cmp : T → T → Int) (A B : List T) (n : Nat) (hn : 1 ≤ n) :
    (MergeFunc A B cmp (limitedCollector n) []).sink
        = (Collect (MergeFunc A B cmp)).take n ∧
      (UnionFunc A B cmp (limitedCollector n) []).sink
        = (Collect (UnionFunc A B cmp)).take n ∧
      (IntersectFunc A B cmp (limitedCollector n) []).sink
        = (Collect (IntersectFunc A B cmp)).take n ∧
      (SubtractFunc A B cmp (limitedCollector n) []).sink
        = (Collect (SubtractFunc A B cmp)).take n := by
  rw [collect_MergeFunc, collect_UnionFunc, collect_IntersectFunc, collect_SubtractFunc,
    MergeFunc_sink, UnionFunc_sink, IntersectFunc_sink, SubtractFunc_sink]
  exact ⟨feed_limitedCollector_nil n _ hn, feed_limitedCollector_nil n _ hn,
    feed_limitedCollector_nil n _ hn, feed_limitedCollector_nil n _ hn⟩

theorem early_termination_witness :
    1 ≤ 2 ∧
      (MergeFunc [0, 1, 1, 5] [1, 2, 3] (Compare : Int → Int → Int)
          (limitedCollector 2) []).sink = [0, 1] ∧
      ((MergeFunc [0, 1, 1, 5] [1, 2, 3] (Compare : Int → Int → Int)
            (limitedCollector 2) []).sink
          = (Collect (MergeFunc [0, 1, 1, 5] [1, 2, 3] Compare)).take 2 ∧
        (UnionFunc [0, 1, 1, 5] [1, 2, 3] (Compare : Int → Int → Int)
            (limitedCollector 2) []).sink
          = (Collect (UnionFunc [0, 1, 1, 5] [1, 2, 3] Compare)).take 2 ∧
        (IntersectFunc [0, 1, 1, 5] [1, 2, 3] (Compare : Int → Int → Int)
            (limitedCollector 2) []).sink
          = (Collect (IntersectFunc [0, 1, 1, 5] [1, 2, 3] Compare)).take 2 ∧
        (SubtractFunc [0, 1, 1, 5] [1, 2, 3] (Compare : Int → Int → Int)
            (limitedCollector 2) []).sink
          = (Collect (SubtractFunc [0, 1, 1, 5] [1, 2, 3] Compare)).take 2) :=
  ⟨by decide, by decide, early_termination Compare [0, 1, 1, 5] [1, 2, 3] 2 (by decide)⟩

/-! ## Cursor release -/

theorem mergeInner_log (cmp : T → T → Int) (yield : T → σ → Bool × σ) (e1 : T)
    (p : List T) (log : List CursorEvent) (s : σ) :
    ∃ k, (mergeInner cmp yield e1 p log s).2.log
      = log ++ List.replicate k CursorEvent.pull := by
  induction p generalizing log s with
  | nil => exact ⟨0, by simp [mergeInner]⟩
  | cons b p ih =>
    by_cases h : cmp b e1 < 0
    · by_cases hy : (yield b s).1 = true
      · obtain ⟨k, hk⟩ := ih (log ++ [CursorEvent.pull]) (yield b s).2
        exact ⟨k + 1, by simp [mergeInner, h, hy, hk, List.replicate_succ]⟩
      · exact ⟨0, by simp [mergeInner, h, hy]⟩
    · exact ⟨0, by simp [mergeInner, h]⟩

theorem mergeDrain_log (yield : T → σ → Bool × σ) (p : List T) (log : List CursorEvent)
    (s : σ) :
    ∃ k, (mergeDrain yield p log s).2.log = log ++ List.replicate k CursorEvent.pull := by
  induction p generalizing log s with
  | nil => exact ⟨0, by simp [mergeDrain]⟩
  | cons b p ih =>
    by_cases hy : (yield b s).1 = true
    · obtain ⟨k, hk⟩ := ih (log ++ [CursorEvent.pull]) (yield b s).2
      exact ⟨k + 1, by simp [mergeDrain, hy, hk, List.replicate_succ]⟩
    · exact ⟨0, by simp [mergeDrain, hy]⟩

theorem mergeOuter_log (cmp : T → T → Int) (yield : T → σ → Bool × σ)
    (s1 p : List T) (log : List CursorEvent) (s : σ) :
    ∃ k, (mergeOuter cmp yield s1 p log s).2.log
      = log ++ List.replicate k CursorEvent.pull := by
  induction s1 generalizing p log s with
  | nil => exact ⟨0, by simp [mergeOuter]⟩
  | cons e1 s1 ih =>
    obtain ⟨k, hk⟩ := mergeInner_log cmp yield e1 p log s
    simp only [mergeOuter]
    by_cases hi : (mergeInner cmp yield e1 p log s).1 = true
    · by_cases hy : (yield e1 (mergeInner cmp yield e1 p log s).2.sink).1 = true
      · obtain ⟨j, hj⟩ := ih (mergeInner cmp yield e1 p log s).2.pending
          (mergeInner cmp yield e1 p log s).2.log
          (yield e1 (mergeInner cmp yield e1 p log s).2.sink).2
        refine ⟨k + j, ?_⟩
        simp only [hi, hy, Bool.not_true, Bool.false_eq_true, if_false]
        rw [hj, hk, List.append_assoc, ← List.replicate_add]
      · exact ⟨k, by simp [hi, hy, hk]⟩
    · exact ⟨k, by simp [hi, hk]⟩

theorem MergeFunc_log (s1 s2 : List T) (cmp : T → T → Int) (yield : T → σ → Bool × σ)
    (s : σ) :
    ∃ k, (MergeFunc s1 s2 cmp yield s).log
      = List.replicate k CursorEvent.pull ++ [CursorEvent.release] := by
  obtain ⟨k, hk⟩ := mergeOuter_log cmp yield s1 s2 [CursorEvent.pull] s
  simp only [MergeFunc, mergeBody]
  by_cases ho : (mergeOuter cmp yield s1 s2 [CursorEvent.pull] s).1 = true
  · obtain ⟨j, hj⟩ := mergeDrain_log yield
      (mergeOuter cmp yield s1 s2 [CursorEvent.pull] s).2.pending
      (mergeOuter cmp yield s1 s2 [CursorEvent.pull] s).2.log
      (mergeOuter cmp yield s1 s2 [CursorEvent.pull] s).2.sink
    refine ⟨1 + k + j, ?_⟩
    simp only [ho, Bool.not_true, Bool.false_eq_true, if_false]
    rw [hj, hk, List.replicate_add, List.replicate_add]
    simp
  · refine ⟨1 + k, ?_⟩
    simp only [ho, Bool.not_false, if_true]
    rw [hk, List.replicate_add]
    simp

theorem skipLess_log (cmp : T → T → Int) (e1 : T) (p : List T) (log : List CursorEvent) :
    ∃ k, (skipLess cmp e1 p log).2 = log ++ List.replicate k CursorEvent.pull := by
  induction p generalizing log with
  | nil => exact ⟨0, by simp [skipLess]⟩
  | cons b p ih =>
    by_cases h : cmp b e1 < 0
    · obtain ⟨k, hk⟩ := ih (log ++ [CursorEvent.pull])
      exact ⟨k + 1, by simp [skipLess, h, hk, List.replicate_succ]⟩
    · exact ⟨0, by simp [skipLess, h]⟩

theorem intersectMatch_log (cmp : T → T → Int) (yield : T → σ → Bool × σ) (e1 : T)
    (p : List T) (log : List CursorEvent) (s : σ) :
    ∃ k, (intersectMatch cmp yield e1 p log s).2.log
      = log ++ List.replicate k CursorEvent.pull := by
  induction p generalizing log s with
  | nil => exact ⟨0, by simp [intersectMatch]⟩
  | cons b p ih =>
    by_cases h : cmp b e1 = 0
    · by_cases hy : (yield e1 s).1 = true
      · obtain ⟨k, hk⟩ := ih (log ++ [CursorEvent.pull]) (yield e1 s).2
        exact ⟨k + 1, by simp [intersectMatch, h, hy, hk, List.replicate_succ]⟩
      · exact ⟨0, by simp [intersectMatch, h, hy]⟩
    · exact ⟨0, by simp [intersectMatch, h]⟩

theorem intersectOuter_log (cmp : T → T → Int) (yield : T → σ → Bool × σ)
    (s1 p : List T) (log : List CursorEvent) (s : σ) :
    ∃ k, (intersectOuter cmp yield s1 p log s).2.log
      = log ++ List.replicate k CursorEvent.pull := by
  induction s1 generalizing p log s with
  | nil => exact ⟨0, by simp [intersectOuter]⟩
  | cons e1 s1 ih =>
    obtain ⟨i, hi⟩ := skipLess_log cmp e1 p log
    obtain ⟨k, hk⟩ := intersectMatch_log cmp yield e1 (skipLess cmp e1 p log).1
      (skipLess cmp e1 p log).2 s
    simp only [intersectOuter]
    generalize intersectMatch cmp yield e1 (skipLess cmp e1 p log).1
      (skipLess cmp e1 p log).2 s = r at hk ⊢
    by_cases hr : r.1 = true
    · obtain ⟨j, hj⟩ := ih r.2.pending r.2.log r.2.sink
      refine ⟨i + k + j, ?_⟩
      simp only [hr, Bool.not_true, Bool.false_eq_true, if_false]
      rw [hj, hk, hi, List.replicate_add, List.replicate_add]
      simp
    · refine ⟨i + k, ?_⟩
      simp only [hr, Bool.not_false, if_true]
      rw [hk, hi, List.replicate_add]
      simp

theorem subtractOuter_log (cmp : T → T → Int) (yield : T → σ → Bool × σ)
    (s1 p : List T) (log : List CursorEvent) (s : σ) :
    ∃ k, (subtractOuter cmp yield s1 p log s).2.log
      = log ++ List.replicate k CursorEvent.pull := by
  induction s1 generalizing p log s with
  | nil => exact ⟨0, by simp [subtractOuter]⟩
  | cons e1 s1 ih =>
    obtain ⟨i, hi⟩ := skipLess_log cmp e1 p log
    simp only [subtractOuter]
    by_cases hh : headEquals cmp e1 (skipLess cmp e1 p log).1 = true
    · obtain ⟨j, hj⟩ := ih (skipLess cmp e1 p log).1 (skipLess cmp e1 p log).2 s
      refine ⟨i + j, ?_⟩
      simp only [hh, if_true]
      rw [hj, hi, List.replicate_add]
      simp
    · by_cases hy : (yield e1 s).1 = true
      · obtain ⟨j, hj⟩ := ih (skipLess cmp e1 p log).1 (skipLess cmp e1 p log).2
          (yield e1 s).2
        refine ⟨i + j, ?_⟩
        simp only [hh, hy, Bool.not_true, Bool.false_eq_true, if_false]
        rw [hj, hi, List.replicate_add]
        simp
      · exact ⟨i, by simp [hh, hy, hi]⟩

/-- C12: cursor release.  In every run of `MergeFunc`, `UnionFunc`, `IntersectFunc` and
`SubtractFunc`, for all inputs, any comparator and any consumer (one that accepts everything
or one that declines at any output position), the actions performed on the cursor over the
second input are some number of pulls followed by exactly one release: the cursor is
released exactly once, when the operation returns, and never pulled after its release. -/
theorem cursor_released_once_at_end (cmp : T → T → Int) (A B : List T)
    (yield : T → σ → Bool × σ) (s : σ) :
    (∃ k, (MergeFunc A B cmp yield s).log
        = List.replicate k CursorEvent.pull ++ [CursorEvent.release]) ∧
      (∃ k, (UnionFunc A B cmp yield s).log
        = List.replicate k CursorEvent.pull ++ [CursorEvent.release]) ∧
      (∃ k, (IntersectFunc A B cmp yield s).log
        = List.replicate k CursorEvent.pull ++ [CursorEvent.release]) ∧
      (∃ k, (SubtractFunc A B cmp yield s).log
        = List.replicate k CursorEvent.pull ++ [CursorEvent.release]) := by
  refine ⟨MergeFunc_log A B cmp yield s, ?_, ?_, ?_⟩
  · exact MergeFunc_log A B cmp (uniqueYielder yield cmp) (none, s)
  · obtain ⟨k, hk⟩ := intersectOuter_log cmp (uniqueYielder yield cmp) A B
      [CursorEvent.pull] (none, s)
    refine ⟨1 + k, ?_⟩
    simp only [IntersectFunc]
    rw [hk, List.replicate_add]
    simp
  · obtain ⟨k, hk⟩ := subtractOuter_log cmp (uniqueYielder yield cmp) A B
      [CursorEvent.pull] (none, s)
    refine ⟨1 + k, ?_⟩
    simp only [SubtractFunc]
    rw [hk, List.replicate_add]
    simp

/-! ## Output sizes without any precondition -/

theorem intersectList_length_le (cmp : T → T → Int) (s1 p : List T) :
    (intersectList cmp s1 p).length ≤ p.length := by
  induction s1 generalizing p with
  | nil => simp [intersectList]
  | cons e1 s1 ih =>
    simp only [intersectList, List.length_append, List.length_replicate]
    have h1 := ih ((p.dropWhile (fun b => decide (cmp b e1 < 0))).dropWhile
      (fun b => decide (cmp b e1 = 0)))
    have h2 := congrArg List.length (List.takeWhile_append_dropWhile
      (fun b => decide (cmp b e1 = 0)) (p.dropWhile (fun b => decide (cmp b e1 < 0))))
    have h3 := (List.dropWhile_sublist (fun b => decide (cmp b e1 < 0)) (l := p)).length_le
    rw [List.length_append] at h2
    omega

theorem subtractList_length_le (cmp : T → T → Int) (s1 p : List T) :
    (subtractList cmp s1 p).length ≤ s1.length := by
  induction s1 generalizing p with
  | nil => simp [subtractList]
  | cons e1 s1 ih =>
    have h1 := ih (p.dropWhile (fun b => decide (cmp b e1 < 0)))
    simp only [subtractList]
    split_ifs
    · simp only [List.length_cons]
      omega
    · simp only [List.length_cons]
      omega

/-- C13: termination without the precondition.  The operations are total functions of their
inputs (every loop is a structural recursion over one of the finite input lists), and for
all finite lists `A` and `B`, sorted or not, and any comparator function whatsoever:
`MergeFunc` outputs exactly `|A| + |B|` values, `UnionFunc` at most `|A| + |B|`,
`SubtractFunc` at most `|A|`, and `IntersectFunc` at most `|B|`. -/
theorem output_sizes (cmp : T → T → Int) (A B : List T) :
    (Collect (MergeFunc A B cmp)).length = A.length + B.length ∧
      (Collect (UnionFunc A B cmp)).length ≤ A.length + B.length ∧
      (Collect (SubtractFunc A B cmp)).length ≤ A.length ∧
      (Collect (IntersectFunc A B cmp)).length ≤ B.length := by
  rw [collect_MergeFunc, collect_UnionFunc, collect_SubtractFunc, collect_IntersectFunc]
  have hm : (mergeList cmp A B).length = A.length + B.length := by
    rw [(mergeList_perm cmp A B).length_eq, List.length_append]
  refine ⟨hm, ?_, ?_, ?_⟩
  · exact hm ▸ (uniqList_sublist cmp none (mergeList cmp A B)).length_le
  · exact le_trans (uniqList_sublist cmp none _).length_le (subtractList_length_le cmp A B)
  · exact le_trans (uniqList_sublist cmp none _).length_le (intersectList_length_le cmp A B)

/-! ## Union is the deduplicated merge -/

theorem uniqList_eq_foldl (cmp : T → T → Int) (l : List T) (kept : List T) :
    l.foldl (dedupStep cmp) kept = kept ++ uniqList cmp kept.getLast? l := by
  induction l generalizing kept with
  | nil => cases h : kept.getLast? <;> simp [uniqList]
  | cons x xs ih =>
    simp only [List.foldl_cons]
    rw [ih]
    cases h : kept.getLast? with
    | none =>
      simp [dedupStep, h, uniqList]
    | some p =>
      by_cases hc : cmp x p = 0
      · simp [dedupStep, h, uniqList, hc]
      · simp [dedupStep, h, uniqList, hc]

theorem dedup_eq_uniqList (cmp : T → T → Int) (l : List T) :
    dedup cmp l = uniqList cmp none l := by
  simpa [dedup] using uniqList_eq_foldl cmp l []

/-- C15: Union is Merge followed by the dedup filter.  For all finite lists `A`, `B` (sorted
or not) and any comparator `cmp`, the output of `UnionFunc(A, B, cmp)` equals `dedup` of the
output of `MergeFunc(A, B, cmp)`, where `dedup` scans the list left to right and keeps an
element `x` exactly when nothing has been kept yet or `cmp(x, prev) != 0` for `prev` the most
recently kept element; and every consumer of `UnionFunc` ends in the state it reaches when
it is handed that list. -/
theorem union_eq_dedup_merge (cmp : T → T → Int) (A B : List T) :
    Collect (UnionFunc A B cmp) = dedup cmp (Collect (MergeFunc A B cmp)) ∧
      ∀ (σ : Type) (y : T → σ → Bool × σ) (s : σ),
        (UnionFunc A B cmp y s).sink
          = (feed y (dedup cmp (Collect (MergeFunc A B cmp))) s).2 := by
  rw [collect_UnionFunc, collect_MergeFunc, dedup_eq_uniqList]
  exact ⟨rfl, fun σ y s => UnionFunc_sink A B cmp y s⟩

/-! ## Merge is an interleaving -/

theorem mergeList_filter_first (cmp : T × Bool → T × Bool → Int) (s1 p : List (T × Bool))
    (h1 : ∀ x ∈ s1, x.2 = false) (hp : ∀ x ∈ p, x.2 = true) :
    (mergeList cmp s1 p).filter (fun x => !x.2) = s1 := by
  induction s1 generalizing p with
  | nil =>
    simp only [mergeList, List.filter_eq_nil_iff]
    intro x hx
    simp [hp x hx]
  | cons e1 s1 ih =>
    have he : e1.2 = false := h1 e1 (List.mem_cons_self _ _)
    have htk : (p.takeWhile (fun b => decide (cmp b e1 < 0))).filter (fun x => !x.2) = [] := by
      rw [List.filter_eq_nil_iff]
      intro x hx
      simp [hp x (List.takeWhile_subset _ hx)]
    simp only [mergeList, List.filter_append, htk, List.nil_append]
    rw [List.filter_cons_of_pos (by simp [he]),
      ih _ (fun x hx => h1 x (List.mem_cons_of_mem _ hx))
        (fun x hx => hp x (List.dropWhile_subset _ hx))]

theorem mergeList_filter_second (cmp : T × Bool → T × Bool → Int) (s1 p : List (T × Bool))
    (h1 : ∀ x ∈ s1, x.2 = false) (hp : ∀ x ∈ p, x.2 = true) :
    (mergeList cmp s1 p).filter (fun x => x.2) = p := by
  induction s1 generalizing p with
  | nil =>
    simp only [mergeList, List.filter_eq_self]
    intro x hx
    simp [hp x hx]
  | cons e1 s1 ih =>
    have he : e1.2 = false := h1 e1 (List.mem_cons_self _ _)
    have htk : (p.takeWhile (fun b => decide (cmp b e1 < 0))).filter (fun x => x.2)
        = p.takeWhile (fun b => decide (cmp b e1 < 0)) := by
      rw [List.filter_eq_self]
      intro x hx
      simp [hp x (List.takeWhile_subset _ hx)]
    simp only [mergeList, List.filter_append, htk]
    rw [List.filter_cons_of_neg (by simp [he]),
      ih _ (fun x hx => h1 x (List.mem_cons_of_mem _ hx))
        (fun x hx => hp x (List.dropWhile_subset _ hx)),
      List.takeWhile_append_dropWhile]

/-- C16: Merge keeps each input's own order.  For all finite lists `A` and `B` (sorted or
not) and any comparator function, run `MergeFunc` on the inputs with every element marked by
its origin (`false` for `A`, `true` for `B`; the comparator ignores the mark): erasing the
marks gives the output of `MergeFunc(A, B, cmp)`, the output elements marked `false` are
exactly `A` in the order of `A`, and those marked `true` are exactly `B` in the order of
`B`.  Hence the output is a permutation of `A ++ B`. -/
theorem mergeFunc_interleaving (cmp : T → T → Int) (A B : List T) :
    (Collect (MergeFunc (tag false A) (tag true B) (onValue cmp))).map Prod.fst
        = Collect (MergeFunc A B cmp) ∧
      ((Collect (MergeFunc (tag false A) (tag true B) (onValue cmp))).filter
          (fun x => !x.2)).map Prod.fst = A ∧
      ((Collect (MergeFunc (tag false A) (tag true B) (onValue cmp))).filter
          (fun x => x.2)).map Prod.fst = B ∧
      (Collect (MergeFunc A B cmp)).Perm (A ++ B) := by
  rw [collect_MergeFunc, collect_MergeFunc,
    mergeList_filter_first _ _ _ (mem_tag false A) (mem_tag true B),
    mergeList_filter_second _ _ _ (mem_tag false A) (mem_tag true B),
    map_fst_tag, map_fst_tag]
  exact ⟨mergeList_tag cmp A B, rfl, rfl, mergeList_perm cmp A B⟩

/-! ## No adjacent repeats in deduplicated outputs -/

theorem uniqList_chain (cmp : T → T → Int) (p : T) (l : List T) :
    (p :: uniqList cmp (some p) l).Chain' (fun x y => cmp y x ≠ 0) := by
  induction l generalizing p with
  | nil => simp [uniqList]
  | cons x xs ih =>
    by_cases hc : cmp x p = 0
    · simpa [uniqList, hc] using ih p
    · simp only [uniqList, hc, if_false]
      exact List.Chain'.cons hc (ih x)

theorem uniqList_none_chain (cmp : T → T → Int) (l : List T) :
    (uniqList cmp none l).Chain' (fun x y => cmp y x ≠ 0) := by
  cases l with
  | nil => simp [uniqList]
  | cons x xs => simpa [uniqList] using uniqList_chain cmp x xs

/-- C18: dedup guarantee without any precondition.  For all finite lists `A` and `B` (sorted
or not) and any comparator function whatsoever, every two adjacent elements `x`, `y` (`x`
immediately before `y`) of the output of `UnionFunc`, `IntersectFunc` or `SubtractFunc`
satisfy `cmp(y, x) != 0`. -/
theorem no_adjacent_repeats (cmp : T → T → Int) (A B : List T) :
    (Collect (UnionFunc A B cmp)).Chain' (fun x y => cmp y x ≠ 0) ∧
      (Collect (IntersectFunc A B cmp)).Chain' (fun x y => cmp y x ≠ 0) ∧
      (Collect (SubtractFunc A B cmp)).Chain' (fun x y => cmp y x ≠ 0) := by
  rw [collect_UnionFunc, collect_IntersectFunc, collect_SubtractFunc]
  exact ⟨uniqList_none_chain cmp _, uniqList_none_chain cmp _, uniqList_none_chain cmp _⟩

/-! ## Empty inputs -/

theorem mergeList_nil_right (cmp : T → T → Int) (l : List T) : mergeList cmp l [] = l := by
  induction l with
  | nil => simp [mergeList]
  | cons x xs ih => simp [mergeList, ih]

theorem intersectList_nil_right (cmp : T → T → Int) (l : List T) :
    intersectList cmp l [] = [] := by
  induction l with
  | nil => simp [intersectList]
  | cons x xs ih => simp [intersectList, ih]

theorem subtractList_nil_right (cmp : T → T → Int) (l : List T) :
    subtractList cmp l [] = l := by
  induction l with
  | nil => simp [subtractList]
  | cons x xs ih => simp [subtractList, headEquals, ih]

/-- When comparing equal is an equivalence relation, the filter of `uniqueYielder` (compare
with the last kept element) and `runHeads` (compare with the previous element) agree. -/
theorem uniqList_eq_runHeadsAux (cmp : T → T → Int) (hrefl : ∀ x, cmp x x = 0)
    (hsymm : ∀ x y, cmp x y = 0 → cmp y x = 0)
    (htrans : ∀ x y z, cmp x y = 0 → cmp y z = 0 → cmp x z = 0)
    (l : List T) (p q : T) (hq : cmp q p = 0) :
    uniqList cmp (some p) l = runHeadsAux cmp q l := by
  induction l generalizing p q with
  | nil => simp [uniqList, runHeadsAux]
  | cons x xs ih =>
    by_cases hc : cmp x p = 0
    · have hqx : cmp q x = 0 := htrans q p x hq (hsymm x p hc)
      simp only [uniqList, runHeadsAux, hc, hqx, if_true]
      exact ih p x hc
    · have hqx : ¬ cmp q x = 0 := fun h0 => hc (htrans x q p (hsymm q x h0) hq)
      simp only [uniqList, runHeadsAux, hc, hqx, if_false]
      rw [ih x x (hrefl x)]

theorem uniqList_eq_runHeads (cmp : T → T → Int) (hrefl : ∀ x, cmp x x = 0)
    (hsymm : ∀ x y, cmp x y = 0 → cmp y x = 0)
    (htrans : ∀ x y z, cmp x y = 0 → cmp y z = 0 → cmp x z = 0) (l : List T) :
    uniqList cmp none l = runHeads cmp l := by
  cases l with
  | nil => simp [uniqList, runHeads]
  | cons x xs =>
    simp only [uniqList, runHeads]
    rw [uniqList_eq_runHeadsAux cmp hrefl hsymm htrans xs x x (hrefl x)]

/-- C14 as stated fails: `nearCmp` satisfies `cmp(x, x) = 0`, yet for `L = [2, 1, 3]` the
output of `UnionFunc(L, [], nearCmp)` is `[2]` (both `1` and `3` compare equal to the kept
`2`), while collapsing each run of consecutive equal values of `L` to its first element
gives `[2, 3]` (`1` and `3` do not compare equal), and `slices.Compact` gives `[2, 1, 3]`. -/
theorem empty_input_reflexive_counterexample :
    (∀ x, nearCmp x x = 0) ∧
      Collect (UnionFunc [2, 1, 3] [] nearCmp) = [2] ∧
      runHeads nearCmp [2, 1, 3] = [2, 3] ∧
      Compact ([2, 1, 3] : List Int) = [2, 1, 3] :=
  ⟨fun x => by simp [nearCmp], by decide, by decide, by decide⟩

/-- C14 (amended): empty input.  For every finite list `L` and comparator with
`cmp(x, x) = 0`: `MergeFunc(L, [])` and `MergeFunc([], L)` output `L`; `UnionFunc(L, [])`,
`UnionFunc([], L)` and `SubtractFunc(L, [])` output `dedup(L)`, that is `L` without the
elements that compare equal (`cmp(x, prev) = 0`) to the most recently kept element;
`IntersectFunc(L, [])`, `IntersectFunc([], L)` and `SubtractFunc([], L)` output nothing.
When comparing equal is moreover symmetric and transitive (as for every lawful comparator),
`dedup(L)` is `L` with each run of consecutive equal values collapsed to its first
element. -/
theorem empty_input (cmp : T → T → Int) (hrefl : ∀ x, cmp x x = 0) (L : List T) :
    Collect (MergeFunc L [] cmp) = L ∧ Collect (MergeFunc [] L cmp) = L ∧
      Collect (UnionFunc L [] cmp) = dedup cmp L ∧
      Collect (UnionFunc [] L cmp) = dedup cmp L ∧
      Collect (SubtractFunc L [] cmp) = dedup cmp L ∧
      Collect (IntersectFunc L [] cmp) = [] ∧
      Collect (IntersectFunc [] L cmp) = [] ∧
      Collect (SubtractFunc [] L cmp) = [] ∧
      ((∀ x y, cmp x y = 0 → cmp y x = 0) →
        (∀ x y z, cmp x y = 0 → cmp y z = 0 → cmp x z = 0) →
        dedup cmp L = runHeads cmp L) := by
  rw [collect_MergeFunc, collect_MergeFunc, collect_UnionFunc, collect_UnionFunc,
    collect_SubtractFunc, collect_IntersectFunc, collect_IntersectFunc, collect_SubtractFunc,
    mergeList_nil_right, intersectList_nil_right, subtractList_nil_right,
    dedup_eq_uniqList]
  refine ⟨rfl, rfl, rfl, rfl, rfl, ?_, rfl, ?_, ?_⟩
  · simp [uniqList]
  · simp [subtractList, uniqList]
  · exact fun hsymm htrans => uniqList_eq_runHeads cmp hrefl hsymm htrans L

theorem empty_input_witness :
    (∀ x, nearCmp x x = 0) ∧
      (Collect (Merge [] ([2, 2, 3] : List Int)) = [2, 2, 3] ∧
        Collect (Union [] ([2, 2, 3] : List Int)) = [2, 3] ∧
        Collect (Intersect [] ([2, 2, 3] : List Int)) = [] ∧
        Collect (Subtract [] ([2, 2, 3] : List Int)) = [] ∧
        Collect (Merge ([5] : List Int) []) = [5] ∧
        Collect (Union ([5] : List Int) []) = [5] ∧
        Collect (Subtract ([5] : List Int) []) = [5] ∧
        Collect (Intersect ([5] : List Int) []) = []) ∧
      dedup nearCmp [2, 1, 3] = [2] ∧
      (Collect (MergeFunc [2, 1, 3] [] nearCmp) = [2, 1, 3] ∧
        Collect (MergeFunc [] [2, 1, 3] nearCmp) = [2, 1, 3] ∧
        Collect (UnionFunc [2, 1, 3] [] nearCmp) = dedup nearCmp [2, 1, 3] ∧
        Collect (UnionFunc [] [2, 1, 3] nearCmp) = dedup nearCmp [2, 1, 3] ∧
        Collect (SubtractFunc [2, 1, 3] [] nearCmp) = dedup nearCmp [2, 1, 3] ∧
        Collect (IntersectFunc [2, 1, 3] [] nearCmp) = [] ∧
        Collect (IntersectFunc [] [2, 1, 3] nearCmp) = [] ∧
        Collect (SubtractFunc [] [2, 1, 3] nearCmp) = [] ∧
        ((∀ x y, nearCmp x y = 0 → nearCmp y x = 0) →
          (∀ x y z, nearCmp x y = 0 → nearCmp y z = 0 → nearCmp x z = 0) →
          dedup nearCmp [2, 1, 3] = runHeads nearCmp [2, 1, 3])) ∧
      dedup (Compare : Int → Int → Int) [2, 2, 3] = runHeads Compare [2, 2, 3] :=
  ⟨fun x => by simp [nearCmp], by decide, by decide,
    empty_input nearCmp (fun x => by simp [nearCmp]) [2, 1, 3],
    (empty_input Compare (fun x => Compare_lawful.refl x) [2, 2, 3]).2.2.2.2.2.2.2.2
      (fun x y h => (Compare_lawful.eq_comm x y).mp h)
      (fun _ _ z hxy hyz => (Compare_lawful.eq_congr hxy z).mpr hyz)⟩

/-! ## Intersect and Subtract partition the first input -/

theorem runHeadsAux_Compare_eq [LinearOrder T] (p : T) (l : List T) :
    runHeadsAux Compare p l = compactFrom p l := by
  induction l generalizing p with
  | nil => simp [runHeadsAux, compactFrom]
  | cons x xs ih =>
    by_cases hx : x = p
    · subst hx
      simp [runHeadsAux, compactFrom, Compare_eq_iff, ih]
    · have hx' : ¬ p = x := fun h => hx h.symm
      simp [runHeadsAux, compactFrom, Compare_eq_iff, hx, hx', ih]

theorem runHeads_Compare_eq [LinearOrder T] (l : List T) :
    runHeads Compare l = Compact l := by
  cases l with
  | nil => simp [runHeads, Compact]
  | cons x xs => simp [runHeads, Compact, runHeadsAux_Compare_eq]

/-- C19: Intersect and Subtract partition the first input.  For all finite non-decreasing
lists of integers `A` and `B` (natural order), `Merge(Intersect(A, B), Subtract(A, B))`
equals `A` with adjacent duplicates removed (`slices.Compact`); no value is in both
`Intersect(A, B)` and `Subtract(A, B)`, and every value of `A` is in one of them. -/
theorem intersect_subtract_partition (A B : List Int) (hA : A.Sorted (· ≤ ·))
    (hB : B.Sorted (· ≤ ·)) :
    Collect (Merge (Collect (Intersect A B)) (Collect (Subtract A B))) = Compact A ∧
      (∀ v, v ∈ Collect (Intersect A B) → v ∉ Collect (Subtract A B)) ∧
      (∀ v, v ∈ A → v ∈ Collect (Intersect A B) ∨ v ∈ Collect (Subtract A B)) := by
  have hA' := (pairwise_Compare_iff A).mpr hA
  have hB' := (pairwise_Compare_iff B).mpr hB
  unfold Merge Intersect Subtract
  rw [collect_MergeFunc, collect_IntersectFunc, collect_SubtractFunc,
    intersect_runHeads Compare_lawful A B hA' hB',
    subtract_runHeads Compare_lawful A B hA' hB']
  have hR : (runHeads Compare A).Sorted (· < ·) :=
    (pairwise_Compare_lt_iff _).mp (runHeads_strict Compare_lawful A hA')
  have hI0 : ((runHeads Compare A).filter (hasEqual Compare B)).Sorted (· < ·) :=
    hR.sublist (List.filter_sublist _)
  have hS0 : ((runHeads Compare A).filter (fun x => !hasEqual Compare B x)).Sorted (· < ·) :=
    hR.sublist (List.filter_sublist _)
  have hI := hI0.le_of_lt
  have hS := hS0.le_of_lt
  refine ⟨?_, ?_, ?_⟩
  · rw [← runHeads_Compare_eq]
    refine List.eq_of_perm_of_sorted ?_ (mergeList_Compare_sorted _ _ hI hS) hR.le_of_lt
    exact (mergeList_perm Compare _ _).trans (List.filter_append_perm _ _)
  · intro v hv hv'
    rw [List.mem_filter] at hv hv'
    simp [hv.2] at hv'
  · intro v hv
    rw [List.mem_filter, List.mem_filter, mem_runHeads_Compare]
    by_cases hb : hasEqual Compare B v = true
    · exact Or.inl ⟨hv, hb⟩
    · exact Or.inr ⟨hv, by simpa using hb⟩

theorem intersect_subtract_partition_witness :
    ([0, 1, 1, 3] : List Int).Sorted (· ≤ ·) ∧ ([1, 2] : List Int).Sorted (· ≤ ·) ∧
      Collect (Merge (Collect (Intersect ([0, 1, 1, 3] : List Int) [1, 2]))
          (Collect (Subtract ([0, 1, 1, 3] : List Int) [1, 2]))) = [0, 1, 3] ∧
      (Collect (Merge (Collect (Intersect ([0, 1, 1, 3] : List Int) [1, 2]))
            (Collect (Subtract ([0, 1, 1, 3] : List Int) [1, 2])))
          = Compact [0, 1, 1, 3] ∧
        (∀ v, v ∈ Collect (Intersect ([0, 1, 1, 3] : List Int) [1, 2]) →
          v ∉ Collect (Subtract ([0, 1, 1, 3] : List Int) [1, 2])) ∧
        (∀ v, v ∈ ([0, 1, 1, 3] : List Int) →
          v ∈ Collect (Intersect ([0, 1, 1, 3] : List Int) [1, 2]) ∨
            v ∈ Collect (Subtract ([0, 1, 1, 3] : List Int) [1, 2]))) :=
  ⟨by decide, by decide, by decide,
    intersect_subtract_partition [0, 1, 1, 3] [1, 2] (by decide) (by decide)⟩

/-! ## Dependence on the tie-break of `MergeFunc` -/

/-- C20 as stated fails for `IntersectFunc` and `SubtractFunc`: they never call `MergeFunc`,
so for every element type, every comparator and all inputs their outputs in the program and
in the variant program (where `MergeFunc` emits the second input first on equality)
coincide; no inputs exist on which they differ. -/
theorem intersect_subtract_tiebreak_counterexample :
    ¬ ∃ (α : Type) (cmp : α → α → Int) (A B : List α),
      Lawful cmp ∧ NonDecreasing cmp A ∧ NonDecreasing cmp B ∧
        (Collect (IntersectFunc A B cmp) ≠ Collect (Variant.IntersectFunc A B cmp) ∨
          Collect (SubtractFunc A B cmp) ≠ Collect (Variant.SubtractFunc A B cmp)) := by
  rintro ⟨α, cmp, A, B, -, -, -, h | h⟩
  · exact h rfl
  · exact h rfl

/-- C20 (amended): of the three set operations only `UnionFunc` depends on the tie-break of
`MergeFunc`.  There exist a lawful comparator and finite sorted inputs on which the output
of `UnionFunc` differs between the program and the variant program in which `MergeFunc`
emits the second input first on equality; `IntersectFunc` and `SubtractFunc` behave the
same in both programs, for every comparator, all inputs and every consumer. -/
theorem union_depends_on_tiebreak (cmp : T → T → Int) (A B : List T)
    (y : T → σ → Bool × σ) (s : σ) :
    (∃ (c : Int × Bool → Int × Bool → Int) (A0 B0 : List (Int × Bool)),
        Lawful c ∧ NonDecreasing c A0 ∧ NonDecreasing c B0 ∧
          Collect (UnionFunc A0 B0 c) ≠ Collect (Variant.UnionFunc A0 B0 c)) ∧
      IntersectFunc A B cmp y s = Variant.IntersectFunc A B cmp y s ∧
      SubtractFunc A B cmp y s = Variant.SubtractFunc A B cmp y s :=
  ⟨⟨onValue Compare, [(1, false)], [(1, true)], onValue_lawful Compare_lawful,
      by simp, by simp, by decide⟩, rfl, rfl⟩

/-! ## Union keeps the representative of the first input -/

theorem mergeList_cons_nil (cmp : T → T → Int) (a : T) (A : List T) :
    mergeList cmp (a :: A) [] = a :: mergeList cmp A [] := by
  simp [mergeList]

theorem mergeList_cons_cons (cmp : T → T → Int) (a b : T) (A p : List T) :
    mergeList cmp (a :: A) (b :: p)
      = if cmp b a < 0 then b :: mergeList cmp (a :: A) p
        else a :: mergeList cmp A (b :: p) := by
  by_cases h : cmp b a < 0
  · simp [mergeList, List.takeWhile_cons, List.dropWhile_cons, h]
  · simp [mergeList, List.takeWhile_cons, List.dropWhile_cons, h]

theorem runHeadsAux_congr {cmp : T → T → Int} (h : Lawful cmp) {r a : T}
    (hra : cmp r a = 0) (l : List T) : runHeadsAux cmp r l = runHeadsAux cmp a l := by
  cases l with
  | nil => simp [runHeadsAux]
  | cons x xs =>
    by_cases hx : cmp r x = 0
    · simp [runHeadsAux, hx, (h.eq_congr hra x).mp hx]
    · have hx' : ¬ cmp a x = 0 := fun h0 => hx ((h.eq_congr hra x).mpr h0)
      simp [runHeadsAux, hx, hx']

theorem runHeads_sublist (cmp : T → T → Int) (l : List T) : (runHeads cmp l).Sublist l := by
  cases l with
  | nil => simp [runHeads]
  | cons a A => simpa [runHeads] using runHeadsAux_sublist cmp a A

theorem hasEqual_of_mem {cmp : T → T → Int} (h : Lawful cmp) (A : List T) (a : T)
    (ha : a ∈ A) : hasEqual cmp A a = true := by
  simp only [hasEqual, List.any_eq_true, decide_eq_true_eq]
  exact ⟨a, ha, h.refl a⟩

theorem hasEqual_eq_false (cmp : T → T → Int) (A : List T) (x : T)
    (hx : ∀ a ∈ A, cmp x a ≠ 0) : hasEqual cmp A x = false := by
  simp only [hasEqual, List.any_eq_false, decide_eq_true_eq]
  exact hx

/-- Emitting the head `a` of the first input after the kept element `r`. -/
theorem union_emit_first {cmp : T → T → Int} (h : Lawful cmp) (P : T → Bool) (a : T)
    (A : List T)
    (ih : ∀ (p : List T) (r : T), (r :: A).Pairwise (fun x y => cmp x y ≤ 0) →
      p.Pairwise (fun x y => cmp x y ≤ 0) → (∀ b ∈ p, cmp r b ≤ 0) →
      (∀ x, cmp r x < 0 → (∀ c ∈ A, cmp x c ≠ 0) → P x = false) →
      (uniqList cmp (some r) (mergeList cmp A p)).filter P = runHeadsAux cmp r A)
    (q : List T) (r : T)
    (hA : (r :: a :: A).Pairwise (fun x y => cmp x y ≤ 0))
    (hq : q.Pairwise (fun x y => cmp x y ≤ 0))
    (hrq : ∀ b ∈ q, cmp r b ≤ 0) (haq : ∀ b ∈ q, cmp a b ≤ 0)
    (hPa : P a = true)
    (hP2 : ∀ x, cmp r x < 0 → (∀ c ∈ a :: A, cmp x c ≠ 0) → P x = false) :
    (uniqList cmp (some r) (a :: mergeList cmp A q)).filter P
      = runHeadsAux cmp r (a :: A) := by
  have hA1 := List.pairwise_cons.mp hA
  have hA2 := List.pairwise_cons.mp hA1.2
  have hra : cmp r a ≤ 0 := hA1.1 a (List.mem_cons_self _ _)
  by_cases hc : cmp a r = 0
  · have hc' : cmp r a = 0 := (h.eq_comm a r).mp hc
    simp only [uniqList, runHeadsAux, hc, hc', if_true]
    rw [← runHeadsAux_congr h hc' A]
    refine ih q r (List.pairwise_cons.mpr
      ⟨fun c hc0 => hA1.1 c (List.mem_cons_of_mem _ hc0), hA2.2⟩) hq hrq ?_
    intro x hrx hx
    refine hP2 x hrx ?_
    intro c hc0
    rcases List.mem_cons.mp hc0 with rfl | hc0
    · intro hxa
      have h1 := (h.eq_congr hc' x).mpr ((h.eq_comm x c).mp hxa)
      omega
    · exact hx c hc0
  · have hc' : ¬ cmp r a = 0 := fun h0 => hc ((h.eq_comm r a).mp h0)
    have hlt : cmp r a < 0 := by omega
    simp only [uniqList, runHeadsAux, hc, hc', if_false]
    rw [List.filter_cons_of_pos hPa]
    congr 1
    refine ih q a hA1.2 hq haq ?_
    intro x hax hx
    refine hP2 x (h.lt_of_lt_of_le hlt (le_of_lt hax)) ?_
    intro c hc0
    rcases List.mem_cons.mp hc0 with rfl | hc0
    · have h1 := h.lt_iff c x
      omega
    · exact hx c hc0

theorem union_aux {cmp : T → T → Int} (h : Lawful cmp) (P : T → Bool) (A p : List T)
    (r : T) (hA : (r :: A).Pairwise (fun x y => cmp x y ≤ 0))
    (hp : p.Pairwise (fun x y => cmp x y ≤ 0)) (hrp : ∀ b ∈ p, cmp r b ≤ 0)
    (hP1 : ∀ a ∈ A, P a = true)
    (hP2 : ∀ x, cmp r x < 0 → (∀ c ∈ A, cmp x c ≠ 0) → P x = false) :
    (uniqList cmp (some r) (mergeList cmp A p)).filter P = runHeadsAux cmp r A := by
  induction A generalizing p r with
  | nil =>
    simp only [mergeList, runHeadsAux, List.filter_eq_nil_iff]
    intro x hx
    have hgt := uniqList_some_gt h r p (List.pairwise_cons.mpr ⟨hrp, hp⟩)
    have := hP2 x ((List.pairwise_cons.mp hgt).1 x hx) (by simp)
    simp [this]
  | cons a A ih =>
    have ih' : ∀ (p : List T) (r : T), (r :: A).Pairwise (fun x y => cmp x y ≤ 0) →
        p.Pairwise (fun x y => cmp x y ≤ 0) → (∀ b ∈ p, cmp r b ≤ 0) →
        (∀ x, cmp r x < 0 → (∀ c ∈ A, cmp x c ≠ 0) → P x = false) →
        (uniqList cmp (some r) (mergeList cmp A p)).filter P = runHeadsAux cmp r A :=
      fun p r h1 h2 h3 h4 =>
        ih p r h1 h2 h3 (fun c hc0 => hP1 c (List.mem_cons_of_mem _ hc0)) h4
    have hPa : P a = true := hP1 a (List.mem_cons_self _ _)
    induction p generalizing r with
    | nil =>
      rw [mergeList_cons_nil]
      exact union_emit_first h P a A ih' [] r hA hp hrp (by simp) hPa hP2
    | cons b p ihp =>
      have hA1 := List.pairwise_cons.mp hA
      have hA2 := List.pairwise_cons.mp hA1.2
      have hp1 := List.pairwise_cons.mp hp
      rw [mergeList_cons_cons]
      by_cases hba : cmp b a < 0
      · simp only [hba, if_true]
        have hrb : cmp r b ≤ 0 := hrp b (List.mem_cons_self _ _)
        by_cases hbr : cmp b r = 0
        · simp only [uniqList, hbr, if_true]
          exact ihp r hA hp1.2 (fun x hx => hrp x (List.mem_cons_of_mem _ hx)) hP2
        · have hlt : cmp r b < 0 := by
            have := h.eq_comm r b
            omega
          have hbA : ∀ c ∈ a :: A, cmp b c < 0 := by
            intro c hc0
            rcases List.mem_cons.mp hc0 with rfl | hc0
            · exact hba
            · exact h.lt_of_lt_of_le hba (hA2.1 c hc0)
          have hPb : P b = false := hP2 b hlt (fun c hc0 => by
            have := hbA c hc0
            omega)
          simp only [uniqList, hbr, if_false]
          rw [List.filter_cons_of_neg (by simp [hPb])]
          rw [ihp b (List.pairwise_cons.mpr ⟨fun c hc0 => le_of_lt (hbA c hc0), hA1.2⟩)
            hp1.2 hp1.1
            (fun x hbx hx => hP2 x (h.lt_of_lt_of_le hlt (le_of_lt hbx)) hx)]
          have h1 : ¬ cmp b a = 0 := by omega
          have h2 : ¬ cmp r a = 0 := by
            have := h.lt_of_lt_of_le hlt (le_of_lt hba)
            omega
          simp only [runHeadsAux, h1, h2, if_false]
      · simp only [hba, if_false]
        have hab : cmp a b ≤ 0 := h.le_of_not_lt hba
        refine union_emit_first h P a A ih' (b :: p) r hA hp hrp ?_ hPa hP2
        intro x hx
        rcases List.mem_cons.mp hx with rfl | hx
        · exact hab
        · exact h.trans _ _ _ hab (hp1.1 x hx)

/-- On sorted inputs, the outputs of `UnionFunc` that have an equal in the first input are
the run heads of the first input. -/
theorem union_first_heads {cmp : T → T → Int} (h : Lawful cmp) (A B : List T)
    (hA : A.Pairwise (fun x y => cmp x y ≤ 0)) (hB : B.Pairwise (fun x y => cmp x y ≤ 0)) :
    (uniqList cmp none (mergeList cmp A B)).filter (hasEqual cmp A) = runHeads cmp A := by
  cases A with
  | nil =>
    simp only [mergeList, runHeads, List.filter_eq_nil_iff]
    intro x _
    simp [hasEqual]
  | cons a A =>
    have hA1 := List.pairwise_cons.mp hA
    have hPa : hasEqual cmp (a :: A) a = true := hasEqual_of_mem h _ a (List.mem_cons_self _ _)
    have hP1 : ∀ c ∈ A, hasEqual cmp (a :: A) c = true :=
      fun c hc => hasEqual_of_mem h _ c (List.mem_cons_of_mem _ hc)
    have hP2 : ∀ x, cmp a x < 0 → (∀ c ∈ A, cmp x c ≠ 0) → hasEqual cmp (a :: A) x = false := by
      intro x hax hx
      refine hasEqual_eq_false cmp _ x ?_
      intro c hc
      rcases List.mem_cons.mp hc with rfl | hc
      · have := h.lt_iff c x
        omega
      · exact hx c hc
    have emitA : ∀ q : List T, q.Pairwise (fun x y => cmp x y ≤ 0) →
        (∀ b ∈ q, cmp a b ≤ 0) →
        (uniqList cmp none (a :: mergeList cmp A q)).filter (hasEqual cmp (a :: A))
          = runHeads cmp (a :: A) := by
      intro q hq haq
      simp only [uniqList, runHeads]
      rw [List.filter_cons_of_pos hPa]
      congr 1
      exact union_aux h _ A q a hA hq haq hP1 hP2
    cases B with
    | nil =>
      rw [mergeList_cons_nil]
      exact emitA [] List.Pairwise.nil (by simp)
    | cons b B =>
      have hB1 := List.pairwise_cons.mp hB
      rw [mergeList_cons_cons]
      by_cases hba : cmp b a < 0
      · simp only [hba, if_true, uniqList]
        have hbA : ∀ c ∈ a :: A, cmp b c < 0 := by
          intro c hc0
          rcases List.mem_cons.mp hc0 with rfl | hc0
          · exact hba
          · exact h.lt_of_lt_of_le hba (hA1.1 c hc0)
        have hPb : hasEqual cmp (a :: A) b = false :=
          hasEqual_eq_false cmp _ b (fun c hc0 => by
            have := hbA c hc0
            omega)
        rw [List.filter_cons_of_neg (by simp [hPb])]
        rw [union_aux h _ (a :: A) B b
          (List.pairwise_cons.mpr ⟨fun c hc0 => le_of_lt (hbA c hc0), hA⟩) hB1.2 hB1.1
          (fun c hc => hasEqual_of_mem h _ c hc)
          (fun x _ hx => hasEqual_eq_false cmp _ x hx)]
        have h1 : ¬ cmp b a = 0 := by omega
        simp only [runHeadsAux, runHeads, h1, if_false]
      · simp only [hba, if_false]
        refine emitA (b :: B) hB ?_
        intro x hx
        rcases List.mem_cons.mp hx with rfl | hx
        · exact h.le_of_not_lt hba
        · exact h.trans _ _ _ (h.le_of_not_lt hba) (hB1.1 x hx)

theorem uniqList_map {α : Type} (cmp : T → T → Int) (f : α → T) (prev : Option α)
    (l : List α) :
    (uniqList (fun x y => cmp (f x) (f y)) prev l).map f
      = uniqList cmp (prev.map f) (l.map f) := by
  induction l generalizing prev with
  | nil => cases prev <;> simp [uniqList]
  | cons x xs ih =>
    cases prev with
    | none => simp [uniqList, ih]
    | some p =>
      by_cases hc : cmp (f x) (f p) = 0
      · simp [uniqList, hc, ih]
      · simp [uniqList, hc, ih]

theorem unionList_tag (cmp : T → T → Int) (A B : List T) :
    (uniqList (onValue cmp) none
        (mergeList (onValue cmp) (tag false A) (tag true B))).map Prod.fst
      = uniqList cmp none (mergeList cmp A B) := by
  have h1 := uniqList_map cmp (Prod.fst : T × Bool → T) none
    (mergeList (onValue cmp) (tag false A) (tag true B))
  rw [mergeList_tag] at h1
  exact h1

theorem hasEqual_tag (cmp : T → T → Int) (b : Bool) (A : List T) (x : T × Bool) :
    hasEqual (onValue cmp) (tag b A) x = hasEqual cmp A x.1 := by
  simp only [hasEqual, tag, onValue]
  induction A with
  | nil => simp
  | cons a A ih => simp [List.any_cons, ih]

/-- C17: Union prefers the first input's representative.  For every lawful comparator `cmp`
(under which `cmp`-equal elements may still be distinguishable) and all finite `cmp`-sorted
lists `A` and `B`: the outputs of `UnionFunc(A, B, cmp)` that are `cmp`-equal to some element
of `A` are, in order, exactly `A` with each run of `cmp`-equal elements collapsed to its
first element; and, marking every element by its origin (`false` for `A`, `true` for `B`;
erasing the marks gives back the output of `UnionFunc(A, B, cmp)`), an element of `B` is
output only when no element of `A` compares equal to it. -/
theorem union_prefers_first_input (cmp : T → T → Int) (h : Lawful cmp) (A B : List T)
    (hA : NonDecreasing cmp A) (hB : NonDecreasing cmp B) :
    (Collect (UnionFunc A B cmp)).filter (hasEqual cmp A) = runHeads cmp A ∧
      (Collect (UnionFunc (tag false A) (tag true B) (onValue cmp))).map Prod.fst
        = Collect (UnionFunc A B cmp) ∧
      ∀ x ∈ Collect (UnionFunc (tag false A) (tag true B) (onValue cmp)),
        x.2 = true → hasEqual cmp A x.1 = false := by
  have hA' := (h.chain_iff_pairwise A).mp hA
  have hB' := (h.chain_iff_pairwise B).mp hB
  rw [collect_UnionFunc, collect_UnionFunc]
  refine ⟨union_first_heads h A B hA' hB', unionList_tag cmp A B, ?_⟩
  intro x hx hx2
  by_contra hne
  have heq : hasEqual (onValue cmp) (tag false A) x = true := by
    rw [hasEqual_tag]
    simpa using hne
  have hmem : x ∈ (uniqList (onValue cmp) none
      (mergeList (onValue cmp) (tag false A) (tag true B))).filter
        (hasEqual (onValue cmp) (tag false A)) :=
    List.mem_filter.mpr ⟨hx, heq⟩
  rw [union_first_heads (onValue_lawful h) (tag false A) (tag true B)
    (tag_pairwise cmp false A hA') (tag_pairwise cmp true B hB')] at hmem
  have := mem_tag false A x ((runHeads_sublist _ _).subset hmem)
  rw [hx2] at this
  cases this

theorem union_prefers_first_input_witness :
    Lawful (onValue (Compare : Int → Int → Int)) ∧
      NonDecreasing (onValue (Compare : Int → Int → Int))
        [(1, false), (1, true), (3, false)] ∧
      NonDecreasing (onValue (Compare : Int → Int → Int))
        [(0, true), (1, true), (3, true), (4, true)] ∧
      Collect (UnionFunc [(1, false), (1, true), (3, false)]
          [(0, true), (1, true), (3, true), (4, true)] (onValue Compare))
        = [((0 : Int), true), (1, false), (3, false), (4, true)] ∧
      ((Collect (UnionFunc [(1, false), (1, true), (3, false)]
            [(0, true), (1, true), (3, true), (4, true)]
            (onValue (Compare : Int → Int → Int)))).filter
            (hasEqual (onValue Compare) [(1, false), (1, true), (3, false)])
          = runHeads (onValue Compare) [(1, false), (1, true), (3, false)] ∧
        (Collect (UnionFunc (tag false [(1, false), (1, true), (3, false)])
            (tag true [(0, true), (1, true), (3, true), (4, true)])
            (onValue (onValue (Compare : Int → Int → Int))))).map Prod.fst
          = Collect (UnionFunc [(1, false), (1, true), (3, false)]
              [(0, true), (1, true), (3, true), (4, true)] (onValue Compare)) ∧
        ∀ x ∈ Collect (UnionFunc (tag false [(1, false), (1, true), (3, false)])
            (tag true [(0, true), (1, true), (3, true), (4, true)])
            (onValue (onValue (Compare : Int → Int → Int)))),
          x.2 = true →
            hasEqual (onValue Compare) [(1, false), (1, true), (3, false)] x.1 = false) :=
  ⟨onValue_lawful Compare_lawful, by simp [onValue, Compare], by simp [onValue, Compare],
    by decide,
    union_prefers_first_input (onValue Compare) (onValue_lawful Compare_lawful)
      [(1, false), (1, true), (3, false)] [(0, true), (1, true), (3, true), (4, true)]
      (by simp [onValue, Compare]) (by simp [onValue, Compare])⟩

end Sorted
